import Mathlib

/-!
# Verification of the BrainFlow graph execution engine (`backend/executor.py`)

Shallow embedding of the node-graph execution engine:

* `validate_and_prepare_inputs` — input validation, default filling, required
  checks and best-effort INT/FLOAT coercion (`executor.py` lines 13-90);
* `slotSelect` — multi-output tuple routing with out-of-range fallback
  (`executor.py` lines 130-139);
* `pyProgress` — progress normalization of `progress_callback`
  (`executor.py` lines 117-120);
* `resolve` / `executeGraph` — the memoized recursive resolver and the
  top-level run (`executor.py` lines 111-185).

Python values are modelled by the inductive `Val`; Python `float` is modelled
as an exact rational (IEEE rounding is out of scope of the claims checked
here).  Unbounded Python recursion is modelled with an explicit fuel
parameter; exhausting the fuel corresponds to exhausting the call stack.
-/

namespace BrainFlow

/-- A Python/JSON value as it flows through the engine.  `none` is Python
`None`; `arr` stands for opaque domain objects (e.g. a Dask array handle)
that are identified only by a tag; `tuple` is a Python tuple (the
multi-output shape returned by handlers); `list` is a JSON list (the shape
used for `(source_id, slot)` references in a graph). -/
inductive Val where
  | none : Val
  | bool (b : Bool) : Val
  | int (n : Int) : Val
  | float (q : Rat) : Val
  | str (s : String) : Val
  | list (l : List Val) : Val
  | tuple (l : List Val) : Val
  | arr (tag : String) : Val

/-- `val is None`. -/
def isNoneVal : Val → Bool
  | .none => true
  | _ => false

/-- Truncation of a rational toward zero, the behaviour of Python's
`int(...)` applied to a float. -/
def ratTrunc (q : Rat) : Int :=
  if 0 ≤ q then Int.floor q else Int.ceil q

/-- Numeric value of a run of decimal digits (accumulator form). -/
def decDigitsAux : List Char → Nat → Option Nat
  | [], acc => some acc
  | c :: cs, acc =>
    if c.isDigit then decDigitsAux cs (acc * 10 + (c.toNat - 48)) else Option.none

/-- Numeric value of a nonempty run of decimal digits; `none` otherwise. -/
def decDigits (l : List Char) : Option Nat :=
  if l.isEmpty then Option.none else decDigitsAux l 0

/-- Python `str.strip()` of surrounding whitespace, as a character list. -/
def pyStrip (s : String) : List Char :=
  ((s.toList.dropWhile Char.isWhitespace).reverse.dropWhile Char.isWhitespace).reverse

/-- Python `int(s)` on a string: strip whitespace, optional sign, decimal
digits.  (Digit-group underscores, which Python also accepts, are not
modelled; no claim exercises them.) -/
def pyStrToInt (s : String) : Option Int :=
  match pyStrip s with
  | '+' :: rest => (decDigits rest).map (fun n => (n : Int))
  | '-' :: rest => (decDigits rest).map (fun n => -(n : Int))
  | rest => (decDigits rest).map (fun n => (n : Int))

/-- Unsigned decimal float body: `digits`, `digits.digits`, `digits.` or
`.digits`, as an exact rational. -/
def floatCore (l : List Char) : Option Rat :=
  let intPart := l.takeWhile Char.isDigit
  match l.dropWhile Char.isDigit with
  | [] =>
    if intPart.isEmpty then Option.none
    else (decDigitsAux intPart 0).map (fun n => (n : Rat))
  | '.' :: fr =>
    let fracPart := fr.takeWhile Char.isDigit
    if (fr.dropWhile Char.isDigit).isEmpty then
      if intPart.isEmpty && fracPart.isEmpty then Option.none
      else
        (decDigitsAux intPart 0).bind fun i =>
          (decDigitsAux fracPart 0).map fun f =>
            (i : Rat) + (f : Rat) / ((10 : Rat) ^ fracPart.length)
    else Option.none
  | _ => Option.none

/-- Python `float(s)` on a string: strip whitespace, optional sign, decimal
form.  (Exponent notation and `inf`/`nan`, which Python also accepts, are
not modelled; no claim exercises them.) -/
def pyStrToFloat (s : String) : Option Rat :=
  match pyStrip s with
  | '+' :: rest => floatCore rest
  | '-' :: rest => (floatCore rest).map (fun q => -q)
  | rest => floatCore rest

/-- Python `int(val)` for the values reachable at the coercion site
(`isinstance(val, (str, int, float))`, which in Python includes `bool`).
`none` models a raised exception (swallowed by the `except: pass`). -/
def pyToInt : Val → Option Int
  | .int n => some n
  | .bool b => some (if b then 1 else 0)
  | .float q => some (ratTrunc q)
  | .str s => pyStrToInt s
  | _ => Option.none

/-- Python `float(val)` for the values reachable at the coercion site. -/
def pyToFloat : Val → Option Rat
  | .int n => some (n : Rat)
  | .bool b => some (if b then 1 else 0)
  | .float q => some q
  | .str s => pyStrToFloat s
  | _ => Option.none

/-- The declared type of a parameter in an `INPUT_TYPES()` schema: either a
type-tag string such as `"STRING"`, `"INT"`, `"FLOAT"`, `"DASK_ARRAY"`, or a
list of enumerated options (e.g. `["gaussian", "median", "sobel"]`). -/
inductive TypeTag where
  | tag (s : String) : TypeTag
  | enum (opts : List Val) : TypeTag

/-- `input_type == s` for a string `s`: a Python `==` between a list and a
string is `False`, so only the `tag` form can match. -/
def tagEq (t : TypeTag) (s : String) : Bool :=
  match t with
  | .tag x => x == s
  | .enum _ => false

/-- One parameter spec `(input_type, meta?)` from an `INPUT_TYPES()` schema.
`meta` is the constraint dictionary (the code reads only `"default"` from
it, via `"default" in meta` / `meta["default"]`). -/
structure ParamCfg where
  input_type : TypeTag
  meta : List (String × Val)

/-- `meta["default"]` when `"default" in meta`. -/
def metaDefault (cfg : ParamCfg) : Option Val :=
  cfg.meta.lookup "default"

/-- The empty-value test used by `validate_and_prepare_inputs` (the fixed,
truthiness-free version): a value is empty iff it is `None` or the empty
string.  Arrays and other opaque values are never empty. -/
def isEmptyVal : Val → Bool
  | .none => true
  | .str s => s == ""
  | _ => false

/-- Python-side error taxonomy of the engine.  `outOfFuel` models exhausting
the recursion (call-stack) budget.  Only the errors raised inside the
`try` block of `get_node_result` (`unknownType`, `validationErr`,
`handlerErr`) cause an `error` event to be sent; see `emits`. -/
inductive Err where
  | outOfFuel : Err
  | missingNode (src : Val) : Err
  | indexErr : Err
  | typeErr : Err
  | unknownType (name : String) : Err
  | validationErr (param : String) : Err
  | handlerErr (node : String) (msg : String) : Err

/-- Human-readable message of an error, as `str(e)` would render it. -/
def errMsg : Err → String
  | .outOfFuel => "maximum recursion depth exceeded"
  | .missingNode _ => "NoneType is not subscriptable"
  | .indexErr => "tuple index out of range"
  | .typeErr => "unsupported operand types"
  | .unknownType name => name
  | .validationErr param => "required input " ++ param ++ " must not be empty"
  | .handlerErr _ msg => msg

/-- Whether an error is raised inside the `try` block of `get_node_result`
(lines 141-172) and therefore triggers the `error` event in its `except`
clause.  Errors raised in the input loop (lines 125-139) propagate without
an event. -/
def emits : Err → Bool
  | .unknownType _ => true
  | .validationErr _ => true
  | .handlerErr _ _ => true
  | _ => false

/-- Processing of one required parameter by `validate_and_prepare_inputs`
(lines 25-57): read the supplied value (`None` when absent), substitute the
schema default — else the first entry of an enumerated type list — when the
value is empty, and reject a still-empty value only when the declared type
is the string `"STRING"`. -/
def requiredValue (name : String) (cfg : ParamCfg) (raw : List (String × Val)) : Val :=
  let supplied := (raw.lookup name).getD Val.none
  if isEmptyVal supplied then
    match metaDefault cfg with
    | some d => d
    | Option.none =>
      match cfg.input_type with
      | .enum (o :: _) => o
      | _ => supplied
  else supplied

/-- The still-empty check after substitution (lines 45-57). -/
def prepareRequired (name : String) (cfg : ParamCfg) (raw : List (String × Val)) :
    Except Err Val :=
  if isEmptyVal (requiredValue name cfg raw) && tagEq cfg.input_type "STRING" then
    .error (.validationErr name)
  else
    .ok (requiredValue name cfg raw)

/-- Processing of one optional parameter (lines 61-69): only a `None`
(or absent) value is replaced by the schema default; an explicit empty
string is kept. -/
def prepareOptional (name : String) (cfg : ParamCfg) (raw : List (String × Val)) : Val :=
  let supplied := (raw.lookup name).getD Val.none
  if isNoneVal supplied then (metaDefault cfg).getD Val.none else supplied

/-- Python dict assignment `d[k] = v`: replace the existing entry in place,
else append. -/
def dictSet (m : List (String × Val)) (k : String) (v : Val) : List (String × Val) :=
  if (m.lookup k).isSome then
    m.map (fun p => if p.1 == k then (k, v) else p)
  else
    m ++ [(k, v)]

/-- The required-parameter loop of `validate_and_prepare_inputs`. -/
def runRequired (defs : List (String × ParamCfg)) (raw : List (String × Val))
    (acc : List (String × Val)) : Except Err (List (String × Val)) :=
  match defs with
  | [] => .ok acc
  | (name, cfg) :: rest =>
    match prepareRequired name cfg raw with
    | .error e => .error e
    | .ok v => runRequired rest raw (dictSet acc name v)

/-- The optional-parameter loop of `validate_and_prepare_inputs`. -/
def runOptional (defs : List (String × ParamCfg)) (raw : List (String × Val))
    (acc : List (String × Val)) : List (String × Val) :=
  match defs with
  | [] => acc
  | (name, cfg) :: rest =>
    runOptional rest raw (dictSet acc name (prepareOptional name cfg raw))

/-- `isinstance(val, (str, int, float))`: Python `bool` is a subclass of
`int`, so it passes this check too. -/
def isSimpleNum : Val → Bool
  | .str _ => true
  | .int _ => true
  | .float _ => true
  | .bool _ => true
  | _ => false

/-- The per-value body of the coercion pass (lines 79-88): for `"INT"` /
`"FLOAT"` declared types, attempt `int(val)` / `float(val)` and keep the
original value when conversion raises. -/
def coerceVal (t : TypeTag) (v : Val) : Val :=
  if tagEq t "INT" then
    match pyToInt v with
    | some n => .int n
    | Option.none => v
  else if tagEq t "FLOAT" then
    match pyToFloat v with
    | some q => .float q
    | Option.none => v
  else v

/-- The coercion pass (lines 72-88) over the fully-populated input
mapping.  `required_defs.get(name) or optional_defs.get(name)` is the
left-biased lookup. -/
def coerceEntry (required optional : List (String × ParamCfg))
    (p : String × Val) : String × Val :=
  if isNoneVal p.2 then p
  else if isSimpleNum p.2 then
    match (required.lookup p.1).orElse (fun _ => optional.lookup p.1) with
    | some cfg => (p.1, coerceVal cfg.input_type p.2)
    | Option.none => p
  else p

/-- The coercion pass applied to every entry of the final mapping. -/
def coercePass (required optional : List (String × ParamCfg))
    (fin : List (String × Val)) : List (String × Val) :=
  fin.map (coerceEntry required optional)

/-- A registered node class, as the executor sees it: the `INPUT_TYPES()`
schema split into its `required` and `optional` sections, the `OUTPUT_NODE`
terminal flag, the names of the parameters the handler's signature accepts
(used for the `k in sig.parameters` filter), and the handler itself, which
may raise (`Except.error` carries `str(e)`). -/
structure NodeCls where
  input_required : List (String × ParamCfg)
  input_optional : List (String × ParamCfg)
  OUTPUT_NODE : Bool
  params : List String
  fn : List (String × Val) → Except String Val

/-- `NODE_CLASS_MAPPINGS`. -/
def Registry := List (String × NodeCls)

/-- `validate_and_prepare_inputs(node_cls, raw_inputs)` (lines 13-90):
required loop, optional loop, then the best-effort coercion pass. -/
def validate_and_prepare_inputs (cls : NodeCls) (raw : List (String × Val)) :
    Except Err (List (String × Val)) :=
  match runRequired cls.input_required raw [] with
  | .error e => .error e
  | .ok acc =>
    .ok (coercePass cls.input_required cls.input_optional
      (runOptional cls.input_optional raw acc))

/-- Python sequence indexing `l[i]`, including negative end-relative
indices; `IndexError` otherwise. -/
def pyIndex (l : List Val) (i : Int) : Except Err Val :=
  if 0 ≤ i ∧ i < (l.length : Int) then
    match l.get? i.toNat with
    | some v => .ok v
    | Option.none => .error .indexErr
  else if -(l.length : Int) ≤ i ∧ i < 0 then
    match l.get? (i + (l.length : Int)).toNat with
    | some v => .ok v
    | Option.none => .error .indexErr
  else .error .indexErr

/-- Output-slot selection (lines 133-137): on a tuple Result,
`src_out[idx] if idx < len(src_out) else src_out[0]`; on any non-tuple
Result the slot is ignored and the whole value is used.  A non-integer slot
makes the `idx < len(...)` comparison raise (`bool` compares as an integer;
a float compares but then fails as an index). -/
def slotSelect (src : Val) (idxv : Val) : Except Err Val :=
  match src with
  | .tuple l =>
    match idxv with
    | .int i => if i < (l.length : Int) then pyIndex l i else pyIndex l 0
    | .bool b =>
      let i : Int := if b then 1 else 0
      if i < (l.length : Int) then pyIndex l i else pyIndex l 0
    | .float q => if q < (l.length : Rat) then .error .typeErr else pyIndex l 0
    | _ => .error .typeErr
  | v => .ok v

/-- The percentage computed by `progress_callback` (lines 117-120):
`total == 0` is replaced by `1`, then `int((current / total) * 100)`. -/
def pyProgress (current total : Int) : Int :=
  let t : Int := if total = 0 then 1 else total
  ratTrunc ((current : Rat) / (t : Rat) * 100)

/-- Events sent over the websocket, plus the lifecycle operations the run
performs on the background monitor task.  `monitorAwaited` is the
await-to-completion operation the asyncio API offers on a cancelled task;
the embedding records it whenever the source performs it. -/
inductive Event where
  | log (msg : String) : Event
  | progress (taskId : String) (pct : Int) (msg : String) : Event
  | error (msg : String) : Event
  | done : Event
  | monitorStarted : Event
  | monitorCancelled : Event
  | monitorAwaited : Event
deriving DecidableEq, Repr

/-- The progress event emitted by `progress_callback(node_id, current,
total, msg)`. -/
def progress_callback (node_id : String) (current total : Int) (msg : String) : Event :=
  .progress node_id (pyProgress current total) msg

/-- The graph's per-node record `{ "type": ..., "inputs": {...} }`. -/
structure NodeData where
  type : String
  inputs : List (String × Val)

/-- A graph: an insertion-ordered mapping from node id to node record. -/
def Graph := List (String × NodeData)

/-- The mutable state of one `execute_graph` run: the memo table
(`results`), the ordered trace of websocket events and monitor-task
operations, and the ordered trace of handler invocations
(each `method(**valid_args)` call records its node id). -/
structure St where
  memo : List (String × Val)
  events : List Event
  invoked : List String

/-- Append an event. -/
def St.emit (st : St) (e : Event) : St :=
  { st with events := st.events ++ [e] }

/-- The `except` clause of `get_node_result` (lines 169-172): send an
`error` event, then re-raise. -/
def emitAndFail (st : St) (e : Err) : Except Err Val × St :=
  (.error e, st.emit (.error (errMsg e)))

/-- The input-assembly loop of `get_node_result` (lines 129-139),
parameterized by the resolver `res` used for `(source_id, slot)`
references (a two-element list).  A literal value is used as-is.  The
Python code calls `get_node_result(v[0])` with whatever `v[0]` is; a
non-string source id can never be a graph key nor a memo key, so
`graph.get(v[0])` yields `None` and subscripting it raises — modelled as
`missingNode` directly. -/
def resolveInputsWith (res : String → St → Except Err Val × St) :
    List (String × Val) → St → Except Err (List (String × Val)) × St
  | [], st => (.ok [], st)
  | (k, v) :: rest, st =>
    match v with
    | .list [a, b] =>
      match a with
      | .str src =>
        match res src st with
        | (.error e, st1) => (.error e, st1)
        | (.ok out, st1) =>
          match slotSelect out b with
          | .error e => (.error e, st1)
          | .ok sel =>
            match resolveInputsWith res rest st1 with
            | (.error e, st2) => (.error e, st2)
            | (.ok tail, st2) => (.ok ((k, sel) :: tail), st2)
      | _ => (.error (.missingNode a), st)
    | _ =>
      match resolveInputsWith res rest st with
      | (.error e, st1) => (.error e, st1)
      | (.ok tail, st1) => (.ok ((k, v) :: tail), st1)

/-- `get_node_result(node_id)` (lines 122-172).  The memo table is
consulted first (line 123); `fuel` bounds the recursion depth, standing
for Python's call stack.  After the inputs are assembled, the `try` block
looks up the node class, validates the inputs, filters them against the
handler signature, invokes the handler and memoizes its Result; any
exception inside the `try` block sends one `error` event and re-raises. -/
def resolve (reg : Registry) (g : Graph) : Nat → String → St → Except Err Val × St
  | fuel, nid, st =>
    match st.memo.lookup nid with
    | some v => (.ok v, st)
    | Option.none =>
      match fuel with
      | 0 => (.error .outOfFuel, st)
      | fuel' + 1 =>
        match g.lookup nid with
        | Option.none => (.error (.missingNode (.str nid)), st)
        | some nd =>
          match resolveInputsWith (resolve reg g fuel') nd.inputs st with
          | (.error e, st1) => (.error e, st1)
          | (.ok raw, st1) =>
            match reg.lookup nd.type with
            | Option.none => emitAndFail st1 (.unknownType nd.type)
            | some cls =>
              match validate_and_prepare_inputs cls raw with
              | .error e => emitAndFail st1 e
              | .ok args =>
                let valid := args.filter (fun p => cls.params.contains p.1)
                let st2 := { st1 with invoked := st1.invoked ++ [nid] }
                match cls.fn valid with
                | .error msg => emitAndFail st2 (.handlerErr nid msg)
                | .ok out => (.ok out, { st2 with memo := dictSet st2.memo nid out })

/-- The top-level loop of `execute_graph` (lines 177-180): resolve each
requested node in turn; an exception aborts the loop. -/
def runTargets (reg : Registry) (g : Graph) (fuel : Nat) :
    List String → St → Except Err Unit × St
  | [], st => (.ok (), st)
  | t :: ts, st =>
    match resolve reg g fuel t st with
    | (.error e, st1) => (.error e, st1)
    | (.ok _, st1) => runTargets reg g fuel ts st1

/-- The terminal-node selection of `execute_graph` (lines 175-178): the
nodes whose class has `OUTPUT_NODE` set (an unknown class contributes
`getattr(None, "OUTPUT_NODE", False) = False`), else the last-declared
node of a nonempty graph. -/
def topTargets (reg : Registry) (g : Graph) : List String :=
  let outs := (g.filter (fun p => ((reg.lookup p.2.type).map (fun c => c.OUTPUT_NODE)).getD false)).map (fun p => p.1)
  if outs.isEmpty then
    match (g.map (fun p => p.1)).getLast? with
    | some k => [k]
    | Option.none => []
  else outs

/-- `execute_graph(graph, websocket)` (lines 111-185): send the startup
log, start the monitor task, resolve the terminal targets, send `done` on
success, and — in the `finally` block, on success and failure alike —
cancel the monitor task.  The source never awaits the cancelled task, so
no `monitorAwaited` operation occurs in any trace. -/
def executeGraph (reg : Registry) (g : Graph) (fuel : Nat) : Except Err Unit × St :=
  let st0 : St := { memo := [], events := [.log "engine start", .monitorStarted], invoked := [] }
  match runTargets reg g fuel (topTargets reg g) st0 with
  | (.error e, st1) => (.error e, st1.emit .monitorCancelled)
  | (.ok _, st1) => (.ok (), (st1.emit .done).emit .monitorCancelled)

/-! ## Dictionary lemmas -/

theorem lookup_cons (p : String × Val) (rest : List (String × Val)) (x : String) :
    ((p :: rest).lookup x) = if x = p.1 then some p.2 else rest.lookup x := by
  by_cases h : x = p.1
  · simp [List.lookup, h]
  · have hb : (x == p.1) = false := by simp [h]
    simp [List.lookup, hb, h]

theorem lookup_append (m l2 : List (String × Val)) (x : String) :
    (m ++ l2).lookup x =
      match m.lookup x with
      | some v => some v
      | Option.none => l2.lookup x := by
  induction m with
  | nil => simp [List.lookup]
  | cons p rest ih =>
    rw [List.cons_append, lookup_cons, lookup_cons]
    by_cases h : x = p.1
    · simp [h]
    · simp only [if_neg h]
      exact ih

theorem lookup_dictSet_self (m : List (String × Val)) (k : String) (v : Val) :
    (dictSet m k v).lookup k = some v := by
  unfold dictSet
  by_cases h : (m.lookup k).isSome
  · rw [if_pos h]
    revert h
    induction m with
    | nil => intro h; simp [List.lookup] at h
    | cons p rest ih =>
      intro h
      by_cases hk : p.1 = k
      · rw [List.map_cons, if_pos (by simpa using hk), lookup_cons]
        simp
      · rw [List.map_cons, if_neg (by simpa using hk), lookup_cons]
        rw [if_neg (fun hh => hk hh.symm)]
        apply ih
        rw [lookup_cons, if_neg (fun hh => hk hh.symm)] at h
        exact h
  · rw [if_neg h]
    rw [lookup_append]
    cases hm : m.lookup k with
    | some v0 => rw [hm] at h; simp at h
    | none => simp [lookup_cons]

theorem lookup_dictSet_ne (m : List (String × Val)) (k : String) (v : Val)
    (x : String) (h : x ≠ k) : (dictSet m k v).lookup x = m.lookup x := by
  unfold dictSet
  by_cases hs : (m.lookup k).isSome
  · rw [if_pos hs]
    clear hs
    induction m with
    | nil => simp
    | cons p rest ih =>
      by_cases hk : p.1 = k
      · rw [List.map_cons, if_pos (by simpa using hk), lookup_cons, lookup_cons]
        rw [if_neg h, if_neg (hk ▸ h)]
        exact ih
      · rw [List.map_cons, if_neg (by simpa using hk), lookup_cons, lookup_cons]
        by_cases hx : x = p.1
        · simp [hx]
        · rw [if_neg hx, if_neg hx]
          exact ih
  · rw [if_neg hs]
    rw [lookup_append]
    cases hm : m.lookup x with
    | some v0 => simp
    | none => simp [lookup_cons, h]

theorem lookup_dictSet_isSome (m : List (String × Val)) (k : String) (v : Val)
    (x : String) :
    ((dictSet m k v).lookup x).isSome = ((m.lookup x).isSome || x == k) := by
  by_cases h : x = k
  · subst h; simp [lookup_dictSet_self]
  · rw [lookup_dictSet_ne m k v x h]
    simp [h]

/-! ## Concrete node classes and graphs used as witnesses -/

/-- A required FLOAT parameter, as in `OMEZarrFilter`'s `sigma`. -/
def floatSigmaCls : NodeCls where
  input_required := [("sigma", ⟨.tag "FLOAT", [("default", .float 1)]⟩)]
  input_optional := []
  OUTPUT_NODE := false
  params := ["sigma"]
  fn := fun _ => .ok .none

/-- A required INT parameter, as in `OMEZarrReader`'s `chunk_multiple`. -/
def intCountCls : NodeCls where
  input_required := [("count", ⟨.tag "INT", []⟩)]
  input_optional := []
  OUTPUT_NODE := false
  params := ["count"]
  fn := fun _ => .ok .none

/-- A source node whose handler returns the empty tuple. -/
def emptyTupleCls : NodeCls where
  input_required := []
  input_optional := []
  OUTPUT_NODE := false
  params := []
  fn := fun _ => .ok (.tuple [])

/-- A terminal node passing one opaque input through. -/
def passCls : NodeCls where
  input_required := [("x", ⟨.tag "DASK_ARRAY", []⟩)]
  input_optional := []
  OUTPUT_NODE := true
  params := ["x"]
  fn := fun args =>
    match args.lookup "x" with
    | some v => .ok (.tuple [v])
    | Option.none => .error "missing x"

def slotReg : Registry := [("EmptyTuple", emptyTupleCls), ("Pass", passCls)]

/-- `B` requests output slot 5 of `A`, whose Result is the empty tuple. -/
def slotGraph : Graph :=
  [("A", ⟨"EmptyTuple", []⟩),
   ("B", ⟨"Pass", [("x", .list [.str "A", .int 5])]⟩)]

/-- `val is tuple`. -/
def isTupleVal : Val → Bool
  | .tuple _ => true
  | _ => false

/-! ## C3: required-parameter validation -/

theorem runRequired_error_source (defs : List (String × ParamCfg))
    (raw acc : List (String × Val)) (e : Err) :
    runRequired defs raw acc = .error e →
    ∃ p ∈ defs, prepareRequired p.1 p.2 raw = .error e := by
  induction defs generalizing acc with
  | nil => intro h; simp [runRequired] at h
  | cons p rest ih =>
    rcases p with ⟨name, cfg⟩
    intro h
    simp only [runRequired] at h
    cases hp : prepareRequired name cfg raw with
    | error e0 =>
      rw [hp] at h
      cases h
      exact ⟨(name, cfg), by simp, hp⟩
    | ok v =>
      rw [hp] at h
      obtain ⟨q, hq, hq2⟩ := ih (dictSet acc name v) h
      exact ⟨q, by simp [hq], hq2⟩

/-- C3: validating a required parameter first substitutes the schema default
(else the head of an enumerated type list) when the supplied value is `None`
or the empty string; if the value is then still `None`/empty and the declared
type tag is `"STRING"`, validation fails with an error naming that parameter;
a non-`STRING` required parameter is never rejected (in particular a
non-empty opaque array value passes through unchanged), and emptiness is
never decided by truthiness of array-like values; an error raised by
`validate_and_prepare_inputs` always originates from some required
parameter's check. -/
theorem claim_C3 :
    (∀ name cfg raw e, prepareRequired name cfg raw = Except.error e →
        e = .validationErr name)
    ∧ (∀ name cfg raw, tagEq cfg.input_type "STRING" = false →
        prepareRequired name cfg raw = .ok (requiredValue name cfg raw))
    ∧ (∀ name cfg raw, isEmptyVal ((raw.lookup name).getD Val.none) = false →
        prepareRequired name cfg raw = .ok ((raw.lookup name).getD Val.none))
    ∧ (∀ name cfg raw d, isEmptyVal ((raw.lookup name).getD Val.none) = true →
        metaDefault cfg = some d →
        prepareRequired name cfg raw =
          if isEmptyVal d && tagEq cfg.input_type "STRING" then
            .error (.validationErr name)
          else .ok d)
    ∧ (∀ name cfg raw o opts, isEmptyVal ((raw.lookup name).getD Val.none) = true →
        metaDefault cfg = Option.none → cfg.input_type = .enum (o :: opts) →
        prepareRequired name cfg raw = .ok o)
    ∧ (∀ name cfg raw ty, isEmptyVal ((raw.lookup name).getD Val.none) = true →
        metaDefault cfg = Option.none → cfg.input_type = .tag ty →
        prepareRequired name cfg raw =
          if ty == "STRING" then .error (.validationErr name)
          else .ok ((raw.lookup name).getD Val.none))
    ∧ (∀ (l : List Val) (t : String),
        isEmptyVal (Val.arr t) = false ∧ isEmptyVal (Val.list l) = false ∧
        isEmptyVal (Val.tuple l) = false)
    ∧ (∀ cls raw e, validate_and_prepare_inputs cls raw = .error e →
        ∃ p ∈ cls.input_required, prepareRequired p.1 p.2 raw = .error e) := by
  refine ⟨?_, ?_, ?_, ?_, ?_, ?_, ?_, ?_⟩
  · intro name cfg raw e h
    unfold prepareRequired at h
    by_cases hc : (isEmptyVal (requiredValue name cfg raw) &&
        tagEq cfg.input_type "STRING") = true
    · rw [if_pos hc] at h
      cases h
      rfl
    · rw [if_neg hc] at h
      cases h
  · intro name cfg raw h
    unfold prepareRequired
    rw [if_neg (by simp [h])]
  · intro name cfg raw h
    have hv : requiredValue name cfg raw = (raw.lookup name).getD Val.none := by
      unfold requiredValue
      simp [h]
    unfold prepareRequired
    rw [hv, if_neg (by simp [h])]
  · intro name cfg raw d hempty hdef
    have hv : requiredValue name cfg raw = d := by
      unfold requiredValue
      simp [hempty, hdef]
    unfold prepareRequired
    rw [hv]
  · intro name cfg raw o opts hempty hdef htype
    have hv : requiredValue name cfg raw = o := by
      unfold requiredValue
      simp [hempty, hdef, htype]
    unfold prepareRequired
    rw [hv, htype]
    simp [tagEq]
  · intro name cfg raw ty hempty hdef htype
    have hv : requiredValue name cfg raw = (raw.lookup name).getD Val.none := by
      unfold requiredValue
      simp [hempty, hdef, htype]
    unfold prepareRequired
    rw [hv, htype]
    by_cases hty : ty = "STRING"
    · simp [tagEq, hty, hempty]
    · simp [tagEq, hty]
  · intro l t
    exact ⟨rfl, rfl, rfl⟩
  · intro cls raw e h
    unfold validate_and_prepare_inputs at h
    cases hr : runRequired cls.input_required raw [] with
    | error e0 =>
      rw [hr] at h
      cases h
      exact runRequired_error_source _ _ _ _ hr
    | ok acc => rw [hr] at h; cases h

/-- C3 witness: a concrete non-empty opaque array value passes a required
non-STRING check, and a concrete missing STRING parameter is rejected with
an error naming it. -/
theorem claim_C3_witness :
    prepareRequired "dask_arr" ⟨.tag "DASK_ARRAY", []⟩ [("dask_arr", .arr "a0")] =
      .ok (.arr "a0")
    ∧ prepareRequired "file_path" ⟨.tag "STRING", []⟩ [] =
      .error (.validationErr "file_path") := by
  constructor
  · exact claim_C3.2.2.1 "dask_arr" ⟨.tag "DASK_ARRAY", []⟩ [("dask_arr", .arr "a0")] rfl
  · have h := claim_C3.2.2.2.2.2.1 "file_path" ⟨.tag "STRING", []⟩ [] "STRING" rfl rfl rfl
    simpa using h

/-! ## C10: optional parameters and totality of the output mapping -/

theorem coerceEntry_fst (required optional : List (String × ParamCfg))
    (p : String × Val) : (coerceEntry required optional p).1 = p.1 := by
  unfold coerceEntry
  by_cases h1 : isNoneVal p.2
  · rw [if_pos h1]
  · rw [if_neg h1]
    by_cases h2 : isSimpleNum p.2
    · rw [if_pos h2]
      cases (required.lookup p.1).orElse (fun _ => optional.lookup p.1) <;> rfl
    · rw [if_neg h2]

theorem coercePass_lookup_isSome (required optional : List (String × ParamCfg))
    (fin : List (String × Val)) (x : String) :
    ((coercePass required optional fin).lookup x).isSome = ((fin.lookup x).isSome) := by
  induction fin with
  | nil => rfl
  | cons p rest ih =>
    show (((coerceEntry required optional p) :: coercePass required optional rest).lookup x).isSome = _
    rw [lookup_cons, lookup_cons, coerceEntry_fst]
    by_cases h : x = p.1
    · simp [h]
    · rw [if_neg h, if_neg h]
      exact ih

theorem runOptional_lookup_isSome (defs : List (String × ParamCfg))
    (raw : List (String × Val)) :
    ∀ acc x, ((runOptional defs raw acc).lookup x).isSome = true ↔
      ((acc.lookup x).isSome = true ∨ x ∈ defs.map Prod.fst) := by
  induction defs with
  | nil => intro acc x; simp [runOptional]
  | cons p rest ih =>
    rcases p with ⟨name, cfg⟩
    intro acc x
    show ((runOptional rest raw (dictSet acc name (prepareOptional name cfg raw))).lookup x).isSome = true ↔ _
    rw [ih]
    rw [lookup_dictSet_isSome]
    constructor
    · rintro (h | h)
      · rcases Bool.or_eq_true_iff.mp h with h1 | h1
        · exact Or.inl h1
        · exact Or.inr (by
            rw [List.map_cons, List.mem_cons]
            exact Or.inl (beq_iff_eq.mp h1))
      · exact Or.inr (by
          rw [List.map_cons, List.mem_cons]
          exact Or.inr h)
    · rintro (h | h)
      · exact Or.inl (by rw [h]; rfl)
      · rw [List.map_cons, List.mem_cons] at h
        rcases h with h1 | h1
        · exact Or.inl (by simp [h1])
        · exact Or.inr h1

theorem runRequired_lookup_isSome (defs : List (String × ParamCfg))
    (raw : List (String × Val)) :
    ∀ acc fin, runRequired defs raw acc = .ok fin →
      ∀ x, ((fin.lookup x).isSome = true ↔
        ((acc.lookup x).isSome = true ∨ x ∈ defs.map Prod.fst)) := by
  induction defs with
  | nil =>
    intro acc fin h x
    cases h
    simp
  | cons p rest ih =>
    rcases p with ⟨name, cfg⟩
    intro acc fin h x
    simp only [runRequired] at h
    cases hp : prepareRequired name cfg raw with
    | error e => rw [hp] at h; cases h
    | ok v =>
      rw [hp] at h
      rw [ih _ _ h, lookup_dictSet_isSome]
      constructor
      · rintro (h1 | h1)
        · rcases Bool.or_eq_true_iff.mp h1 with h2 | h2
          · exact Or.inl h2
          · exact Or.inr (by
              rw [List.map_cons, List.mem_cons]
              exact Or.inl (beq_iff_eq.mp h2))
        · exact Or.inr (by
            rw [List.map_cons, List.mem_cons]
            exact Or.inr h1)
      · rintro (h1 | h1)
        · exact Or.inl (by rw [h1]; rfl)
        · rw [List.map_cons, List.mem_cons] at h1
          rcases h1 with h2 | h2
          · exact Or.inl (by simp [h2])
          · exact Or.inr h2

/-- C10: an optional parameter's value is replaced by the schema default only
when it is absent or `None` — an explicitly supplied empty string is kept as
the empty string — and the validator's output mapping has an entry for
exactly the declared required and optional parameter names (undeclared raw
inputs are excluded). -/
theorem claim_C10 :
    (∀ name cfg raw, (raw.lookup name).getD Val.none = Val.none →
        prepareOptional name cfg raw = (metaDefault cfg).getD Val.none)
    ∧ (∀ name cfg raw v, raw.lookup name = some v → isNoneVal v = false →
        prepareOptional name cfg raw = v)
    ∧ (prepareOptional "output_path" ⟨.tag "STRING", [("default", .str "auto")]⟩
        [("output_path", .str "")] = .str "")
    ∧ (∀ cls raw fin, validate_and_prepare_inputs cls raw = .ok fin →
        ∀ x, (fin.lookup x).isSome = true ↔
          (x ∈ cls.input_required.map Prod.fst ∨ x ∈ cls.input_optional.map Prod.fst)) := by
  refine ⟨?_, ?_, ?_, ?_⟩
  · intro name cfg raw h
    unfold prepareOptional
    rw [h]
    rfl
  · intro name cfg raw v h hv
    unfold prepareOptional
    rw [h]
    show (if isNoneVal v then _ else v) = v
    rw [if_neg (by simp [hv])]
  · rfl
  · intro cls raw fin h x
    unfold validate_and_prepare_inputs at h
    cases hr : runRequired cls.input_required raw [] with
    | error e => rw [hr] at h; cases h
    | ok acc =>
      rw [hr] at h
      cases h
      rw [coercePass_lookup_isSome, runOptional_lookup_isSome,
        runRequired_lookup_isSome _ _ _ _ hr]
      simp [List.lookup]

/-- A node class with one defaulted required INT and one optional STRING. -/
def c10Cls : NodeCls where
  input_required := [("req", ⟨.tag "INT", [("default", .int 3)]⟩)]
  input_optional := [("opt", ⟨.tag "STRING", []⟩)]
  OUTPUT_NODE := false
  params := []
  fn := fun _ => .ok .none

/-- C10 witness: an explicitly supplied empty string survives as the empty
string, and a concrete validated mapping contains its declared optional
parameter. -/
theorem claim_C10_witness :
    prepareOptional "p0" ⟨.tag "STRING", [("default", .str "auto")]⟩
        [("p0", .str "")] = .str ""
    ∧ (([("req", Val.int 3), ("opt", Val.none)].lookup "opt").isSome = true) := by
  constructor
  · exact claim_C10.2.1 "p0" ⟨.tag "STRING", [("default", .str "auto")]⟩
      [("p0", .str "")] (.str "") rfl rfl
  · exact (claim_C10.2.2.2 c10Cls [] [("req", Val.int 3), ("opt", Val.none)]
      rfl "opt").mpr (Or.inr (by simp [c10Cls]))

/-! ## C6: best-effort INT/FLOAT coercion -/

theorem tagEq_float_not_int (t : TypeTag) (h : tagEq t "FLOAT" = true) :
    tagEq t "INT" = false := by
  cases t with
  | tag x =>
    have hx : x = "FLOAT" := by simpa [tagEq] using h
    simp [tagEq, hx]
  | enum opts => simp [tagEq] at h

/-- C6: for a parameter declared INT or FLOAT whose value is a string or
number, the validator attempts numeric conversion — `"3.14"` supplied for a
FLOAT parameter becomes the float `3.14` — and on conversion failure the
original value is silently kept unchanged, so the unconvertible string
`"abc"` for an INT parameter survives as the raw string. -/
theorem claim_C6 :
    (∀ t v n, tagEq t "INT" = true → pyToInt v = some n → coerceVal t v = .int n)
    ∧ (∀ t v, tagEq t "INT" = true → pyToInt v = Option.none → coerceVal t v = v)
    ∧ (∀ t v q, tagEq t "FLOAT" = true → pyToFloat v = some q →
        coerceVal t v = .float q)
    ∧ (∀ t v, tagEq t "FLOAT" = true → pyToFloat v = Option.none →
        coerceVal t v = v)
    ∧ validate_and_prepare_inputs floatSigmaCls [("sigma", .str "3.14")] =
        .ok [("sigma", .float (157/50))]
    ∧ validate_and_prepare_inputs intCountCls [("count", .str "abc")] =
        .ok [("count", .str "abc")] := by
  refine ⟨?_, ?_, ?_, ?_, ?_, ?_⟩
  · intro t v n ht hv
    unfold coerceVal
    rw [if_pos ht, hv]
  · intro t v ht hv
    unfold coerceVal
    rw [if_pos ht, hv]
  · intro t v q ht hv
    unfold coerceVal
    rw [if_neg (by simp [tagEq_float_not_int t ht]), if_pos ht, hv]
  · intro t v ht hv
    unfold coerceVal
    rw [if_neg (by simp [tagEq_float_not_int t ht]), if_pos ht, hv]
  · have hEx : ∃ q, validate_and_prepare_inputs floatSigmaCls
        [("sigma", .str "3.14")] = .ok [("sigma", .float q)] ∧ q = 157/50 :=
      ⟨_, rfl, by
      have e1 : ('3'.toNat - 48) = 3 := rfl
      have e2 : ('1'.toNat - 48) = 1 := rfl
      have e3 : ('4'.toNat - 48) = 4 := rfl
      have e4 : (List.takeWhile Char.isDigit ['1', '4']).length = 2 := rfl
      rw [e1, e2, e3, e4]
      push_cast
      norm_num⟩
    obtain ⟨q, h1, h2⟩ := hEx
    rw [h2] at h1
    exact h1
  · rfl

/-- C6 witness: the general INT-failure case applied at the concrete
unconvertible string. -/
theorem claim_C6_witness :
    coerceVal (.tag "INT") (.str "abc") = .str "abc"
    ∧ coerceVal (.tag "FLOAT") (.str "3.14") = .float (157/50) := by
  constructor
  · exact claim_C6.2.1 (.tag "INT") (.str "abc") rfl rfl
  · have hEx : ∃ q, pyToFloat (Val.str "3.14") = some q ∧ q = 157/50 :=
      ⟨_, rfl, by
      have e1 : ('3'.toNat - 48) = 3 := rfl
      have e2 : ('1'.toNat - 48) = 1 := rfl
      have e3 : ('4'.toNat - 48) = 4 := rfl
      have e4 : (List.takeWhile Char.isDigit ['1', '4']).length = 2 := rfl
      rw [e1, e2, e3, e4]
      push_cast
      norm_num⟩
    obtain ⟨q, h1, h2⟩ := hEx
    rw [h2] at h1
    exact claim_C6.2.2.1 (.tag "FLOAT") (.str "3.14") (157/50) rfl h1

/-! ## C5: output-slot selection -/

theorem pyIndex_nil (i : Int) : pyIndex ([] : List Val) i = .error .indexErr := by
  unfold pyIndex
  have h1 : ¬(0 ≤ i ∧ i < ((List.length ([] : List Val)) : Int)) := by
    rintro ⟨ha, hb⟩
    simp only [List.length_nil, Nat.cast_zero] at hb
    omega
  have h2 : ¬(-((List.length ([] : List Val)) : Int) ≤ i ∧ i < 0) := by
    rintro ⟨ha, hb⟩
    simp only [List.length_nil, Nat.cast_zero, neg_zero] at ha
    omega
  rw [if_neg h1, if_neg h2]

/-- C5 counterexample: the claim says an out-of-range slot falls back to
slot 0 "instead of failing", but when the source Result is the empty tuple
the fallback access `src_out[0]` itself raises `IndexError`, and the whole
run fails. -/
theorem claim_C5_counterexample :
    slotSelect (.tuple []) (.int 5) = .error .indexErr
    ∧ (executeGraph slotReg slotGraph 10).1 = .error .indexErr := by
  exact ⟨rfl, rfl⟩

/-- C5 (amended): for a `(source_id, slot)` reference with integer slot `i`:
a non-negative in-range `i` selects element `i` of a tuple Result; an `i`
at or above the tuple length falls back to slot 0 provided the tuple is
non-empty; on the empty tuple every slot access fails with `IndexError`; a
non-tuple Result ignores the slot and is used whole; and a negative `i`
uses Python end-relative indexing. -/
theorem claim_C5 :
    (∀ (l : List Val) (i : Int) v, 0 ≤ i → l.get? i.toNat = some v →
        slotSelect (.tuple l) (.int i) = .ok v)
    ∧ (∀ (l : List Val) (i : Int) v, (l.length : Int) ≤ i → l.get? 0 = some v →
        slotSelect (.tuple l) (.int i) = .ok v)
    ∧ (∀ i : Int, slotSelect (.tuple []) (.int i) = .error .indexErr)
    ∧ (∀ (v iv : Val), isTupleVal v = false → slotSelect v iv = .ok v)
    ∧ (∀ (l : List Val) (i : Int) v, i < 0 → -(l.length : Int) ≤ i →
        l.get? (i + (l.length : Int)).toNat = some v →
        slotSelect (.tuple l) (.int i) = .ok v) := by
  refine ⟨?_, ?_, ?_, ?_, ?_⟩
  · intro l i v hi hv
    have hlt : i.toNat < l.length := by
      by_contra hc
      rw [List.get?_eq_none.mpr (Nat.le_of_not_lt hc)] at hv
      cases hv
    have hilt : i < (l.length : Int) := by omega
    show (if i < (l.length : Int) then pyIndex l i else pyIndex l 0) = .ok v
    rw [if_pos hilt]
    unfold pyIndex
    rw [if_pos ⟨hi, hilt⟩, hv]
  · intro l i v hi hv
    have hpos : 0 < l.length := by
      by_contra hc
      have : l.length = 0 := by omega
      rw [List.get?_eq_none.mpr (by omega)] at hv
      cases hv
    show (if i < (l.length : Int) then pyIndex l i else pyIndex l 0) = .ok v
    rw [if_neg (by omega)]
    unfold pyIndex
    rw [if_pos ⟨le_refl 0, by exact_mod_cast hpos⟩]
    rw [show ((0 : Int)).toNat = 0 from rfl, hv]
  · intro i
    show (if i < ((List.length ([] : List Val)) : Int) then pyIndex [] i
          else pyIndex [] 0) = .error .indexErr
    by_cases h : i < ((List.length ([] : List Val)) : Int)
    · rw [if_pos h, pyIndex_nil]
    · rw [if_neg h, pyIndex_nil]
  · intro v iv h
    cases v <;> first
      | rfl
      | simp [isTupleVal] at h
  · intro l i v hneg hge hv
    show (if i < (l.length : Int) then pyIndex l i else pyIndex l 0) = .ok v
    rw [if_pos (by omega)]
    unfold pyIndex
    rw [if_neg (by omega), if_pos ⟨hge, hneg⟩, hv]

/-- C5 witness: a concrete out-of-range slot 5 on a two-slot Result
resolves to slot 0. -/
theorem claim_C5_witness :
    slotSelect (.tuple [.int 10, .int 20]) (.int 5) = .ok (.int 10) := by
  exact claim_C5.2.1 [.int 10, .int 20] 5 (.int 10) (by norm_num) rfl

/-! ## C7: progress normalization -/

/-- C7 counterexample: the claim says every report is normalized to a
percentage in 0-100, but the code does not clamp — a handler reporting
`current = 2, total = 1` produces a 200% progress event. -/
theorem pyProgress_two_one : pyProgress 2 1 = 200 := by
  unfold pyProgress ratTrunc
  norm_num

theorem pyProgress_zero_zero : pyProgress 0 0 = 0 := by
  unfold pyProgress ratTrunc
  norm_num

theorem claim_C7_counterexample :
    progress_callback "n1" 2 1 "" = .progress "n1" 200 ""
    ∧ ¬(pyProgress 2 1 ≤ 100) := by
  constructor
  · show Event.progress "n1" (pyProgress 2 1) "" = .progress "n1" 200 ""
    rw [pyProgress_two_one]
  · intro h
    rw [pyProgress_two_one] at h
    omega

/-- C7 (amended): the callback normalizes `(current, total)` to the integer
percentage `int((current / total) * 100)` after replacing `total == 0` by
`1` — so `(0, 0)` yields a 0% event and never a division-by-zero fault —
and the result lies in 0-100 whenever `0 ≤ current ≤ total` (after the
zero-total substitution). -/
theorem claim_C7 :
    pyProgress 0 0 = 0
    ∧ progress_callback "n" 0 0 "start" = .progress "n" 0 "start"
    ∧ (∀ current total : Int, 0 ≤ current →
        current ≤ (if total = 0 then 1 else total) →
        0 ≤ pyProgress current total ∧ pyProgress current total ≤ 100) := by
  refine ⟨pyProgress_zero_zero, ?_, ?_⟩
  · show Event.progress "n" (pyProgress 0 0) "start" = .progress "n" 0 "start"
    rw [pyProgress_zero_zero]
  intro c t hc hct
  have htpos : 0 < (if t = 0 then 1 else t) := by
    by_cases h : t = 0
    · simp [h]
    · rw [if_neg h]
      rw [if_neg h] at hct
      omega
  set t' : Int := if t = 0 then 1 else t with ht'
  have htq : (0 : Rat) < (t' : Rat) := by exact_mod_cast htpos
  have hq0 : (0 : Rat) ≤ (c : Rat) / (t' : Rat) * 100 := by positivity
  have hq1 : (c : Rat) / (t' : Rat) * 100 ≤ 100 := by
    have h1 : (c : Rat) / (t' : Rat) ≤ 1 := by
      rw [div_le_one htq]
      exact_mod_cast hct
    nlinarith
  have hpp : pyProgress c t = Int.floor ((c : Rat) / (t' : Rat) * 100) := by
    unfold pyProgress ratTrunc
    rw [← ht', if_pos hq0]
  rw [hpp]
  constructor
  · exact Int.le_floor.mpr (by exact_mod_cast hq0)
  · calc Int.floor ((c : Rat) / (t' : Rat) * 100)
        ≤ Int.floor ((100 : Rat)) := Int.floor_le_floor hq1
      _ = 100 := by norm_num

/-- C7 witness: the bound applied at a concrete in-range report. -/
theorem claim_C7_witness :
    0 ≤ pyProgress 3 4 ∧ pyProgress 3 4 ≤ 100 := by
  exact claim_C7.2.2 3 4 (by norm_num) (by norm_num)

/-! ## C8: terminal-node selection -/

/-- Modelled from the spec (§4.3): "determine the set of terminal nodes
(those whose handler descriptor marks `is-terminal`); if none exist,
resolve only the last-declared node in the graph as a fallback
single-output convenience; if terminal nodes exist, resolve all of
them." -/
def specTerminalSelection (reg : Registry) (g : Graph) : List String :=
  let terminals := (g.filter fun p =>
      match reg.lookup p.2.type with
      | some cls => cls.OUTPUT_NODE
      | Option.none => false).map Prod.fst
  match terminals with
  | [] => ((g.map Prod.fst).getLast?).toList
  | _ => terminals

theorem topTargets_eq_spec (reg : Registry) (g : Graph) :
    topTargets reg g = specTerminalSelection reg g := by
  unfold topTargets specTerminalSelection
  have hf : (fun (p : String × NodeData) =>
      ((reg.lookup p.2.type).map (fun c => c.OUTPUT_NODE)).getD false) =
      (fun (p : String × NodeData) =>
      match reg.lookup p.2.type with
      | some cls => cls.OUTPUT_NODE
      | Option.none => false) := by
    funext p
    cases h : reg.lookup p.2.type <;> simp [h]
  rw [hf]
  cases houts : (g.filter fun p =>
      match reg.lookup p.2.type with
      | some cls => cls.OUTPUT_NODE
      | Option.none => false).map Prod.fst with
  | nil =>
    simp only [List.isEmpty_nil, if_true]
    cases hl : (g.map Prod.fst).getLast? <;> rfl
  | cons t ts =>
    simp only [List.isEmpty_cons, if_false]
    rfl

/-- C8: the top-level run resolves exactly the nodes whose class is marked
`OUTPUT_NODE` (terminal); if no node of the graph is marked terminal, it
resolves only the last-declared node as a fallback.  The first conjunct
identifies the engine's selection with the spec-worded selection; the
second shows the whole run is the resolution of exactly that list of
targets. -/
theorem claim_C8 :
    (∀ reg g, topTargets reg g = specTerminalSelection reg g)
    ∧ (∀ reg g fuel, executeGraph reg g fuel =
        (match runTargets reg g fuel (specTerminalSelection reg g)
            { memo := [], events := [.log "engine start", .monitorStarted],
              invoked := [] } with
         | (.error e, st1) => (.error e, st1.emit .monitorCancelled)
         | (.ok _, st1) => (.ok (), (st1.emit .done).emit .monitorCancelled))) := by
  constructor
  · exact topTargets_eq_spec
  · intro reg g fuel
    unfold executeGraph
    rw [topTargets_eq_spec]

/-! ## C2: cyclic graphs -/

/-- A node with one reference input, used to build a two-node cycle. -/
def cycCls : NodeCls where
  input_required := [("x", ⟨.tag "DASK_ARRAY", []⟩)]
  input_optional := []
  OUTPUT_NODE := false
  params := ["x"]
  fn := fun _ => .ok (.tuple [.int 0])

def cycReg : Registry := [("Cyc", cycCls)]

/-- `X` references an output of `Y` while `Y` references an output of `X`. -/
def gXY : Graph :=
  [("X", ⟨"Cyc", [("x", .list [.str "Y", .int 0])]⟩),
   ("Y", ⟨"Cyc", [("x", .list [.str "X", .int 0])]⟩)]

theorem cyc_resolve (fuel : Nat) : ∀ st : St,
    st.memo.lookup "X" = Option.none → st.memo.lookup "Y" = Option.none →
    resolve cycReg gXY fuel "X" st = (.error .outOfFuel, st)
    ∧ resolve cycReg gXY fuel "Y" st = (.error .outOfFuel, st) := by
  induction fuel with
  | zero =>
    intro st hX hY
    constructor
    · rw [resolve, hX]
    · rw [resolve, hY]
  | succ fuel ih =>
    intro st hX hY
    have hgX : gXY.lookup "X" =
        some ⟨"Cyc", [("x", Val.list [Val.str "Y", Val.int 0])]⟩ := rfl
    have hgY : gXY.lookup "Y" =
        some ⟨"Cyc", [("x", Val.list [Val.str "X", Val.int 0])]⟩ := rfl
    constructor
    · rw [resolve, hX, hgX]
      simp only [resolveInputsWith]
      rw [(ih st hX hY).2]
    · rw [resolve, hY, hgY]
      simp only [resolveInputsWith]
      rw [(ih st hX hY).1]

/-- C2: the claim says a cyclic graph fails with `CyclicGraphError`.  The
code has no such guard and no such error: on the two-node cycle
`X ⇄ Y` the resolver recurses until the call stack (fuel) is exhausted,
whatever the budget — the run's only outcome is stack exhaustion, with no
handler ever invoked and no error event sent.  (The engine's whole error
taxonomy `Err`, translated from the source, contains no cyclic-graph
variant.) -/
theorem claim_C2 : ∀ fuel : Nat,
    executeGraph cycReg gXY fuel =
      (.error .outOfFuel,
        { memo := [],
          events := [.log "engine start", .monitorStarted, .monitorCancelled],
          invoked := [] }) := by
  intro fuel
  have h := (cyc_resolve fuel
    { memo := [], events := [.log "engine start", .monitorStarted], invoked := [] }
    rfl rfl).2
  unfold executeGraph
  rw [show topTargets cycReg gXY = ["Y"] from rfl]
  simp only [runTargets]
  rw [h]
  rfl

/-! ## Run invariants: definitions -/

/-- The error events appended by a resolution step: exactly one `error`
event for an error raised inside the `try` block, nothing otherwise. -/
def errEvents {α : Type} : Except Err α → List Event
  | .ok _ => []
  | .error e => if emits e then [.error (errMsg e)] else []

/-- The memo table only ever grows (entries are never removed or
overwritten). -/
def memoMono (st st' : St) : Prop :=
  ∀ k v, st.memo.lookup k = some v → st'.memo.lookup k = some v

/-- Node `a`'s inputs contain a `(b, slot)` reference. -/
def RefEdge (g : Graph) (a b : String) : Prop :=
  ∃ nd k bv, g.lookup a = some nd ∧ (k, Val.list [Val.str b, bv]) ∈ nd.inputs

/-- A nonempty set of nodes each of which references some member of the
set: the support of a dependency cycle. -/
def CycSet (g : Graph) (C : List String) : Prop :=
  C ≠ [] ∧ ∀ c ∈ C, ∃ c' ∈ C, RefEdge g c c'

/-- No member of `C` is memoized. -/
def memoFree (memo : List (String × Val)) (C : List String) : Prop :=
  ∀ c ∈ C, memo.lookup c = Option.none

/-- A reference path all of whose nodes are unmemoized. -/
inductive FreshPath (g : Graph) (memo : List (String × Val)) :
    String → String → Prop where
  | refl (n : String) (h : memo.lookup n = Option.none) : FreshPath g memo n n
  | step (n s m : String) (hn : memo.lookup n = Option.none)
      (e : RefEdge g n s) (p : FreshPath g memo s m) : FreshPath g memo n m

/-- What one `get_node_result` call guarantees, relative to its entry state
`st`, its exit state `st'`, its result `r`, and the list `Δ` of handler
invocations it performed. -/
structure RS (reg : Registry) (g : Graph) (nid : String) (st : St)
    (r : Except Err Val) (st' : St) (Δ : List String) : Prop where
  hinv : st'.invoked = st.invoked ++ Δ
  hmono : memoMono st st'
  hev : st'.events = st.events ++ errEvents r
  hfresh : ∀ m ∈ Δ, st.memo.lookup m = Option.none
  hmemod : ∀ m ∈ Δ, (st'.memo.lookup m).isSome = true ∨
      ∃ msg, r = .error (.handlerErr m msg)
  hgain : ∀ m, (st'.memo.lookup m).isSome = true →
      (st.memo.lookup m).isSome = true ∨ m ∈ Δ
  hnodup : Δ.Nodup
  hpath : ∀ m ∈ Δ, FreshPath g st.memo nid m
  hdeps : ∀ m ∈ Δ, ∀ s, RefEdge g m s → (st'.memo.lookup s).isSome = true
  hfail : ∀ n msg, r = .error (.handlerErr n msg) →
      st'.memo.lookup n = Option.none
  hres : ∀ v, r = .ok v → st'.memo.lookup nid = some v
  hcyc : ∀ C, CycSet g C → memoFree st.memo C →
      memoFree st'.memo C ∧ (∀ c ∈ C, c ∉ Δ) ∧
      (nid ∈ C → ∀ v, r ≠ .ok v)

/-- The same guarantees for the input-assembly loop over a list of declared
inputs `l`. -/
structure QS (reg : Registry) (g : Graph) (l : List (String × Val)) (st : St)
    (r : Except Err (List (String × Val))) (st' : St) (Δ : List String) : Prop where
  hinv : st'.invoked = st.invoked ++ Δ
  hmono : memoMono st st'
  hev : st'.events = st.events ++ errEvents r
  hfresh : ∀ m ∈ Δ, st.memo.lookup m = Option.none
  hmemod : ∀ m ∈ Δ, (st'.memo.lookup m).isSome = true ∨
      ∃ msg, r = .error (.handlerErr m msg)
  hgain : ∀ m, (st'.memo.lookup m).isSome = true →
      (st.memo.lookup m).isSome = true ∨ m ∈ Δ
  hnodup : Δ.Nodup
  hpath : ∀ m ∈ Δ, ∃ k s bv, (k, Val.list [Val.str s, bv]) ∈ l ∧
      FreshPath g st.memo s m
  hdeps : ∀ m ∈ Δ, ∀ s, RefEdge g m s → (st'.memo.lookup s).isSome = true
  hfail : ∀ n msg, r = .error (.handlerErr n msg) →
      st'.memo.lookup n = Option.none
  hrefs : ∀ raw, r = .ok raw → ∀ k s bv, (k, Val.list [Val.str s, bv]) ∈ l →
      (st'.memo.lookup s).isSome = true
  hcyc : ∀ C, CycSet g C → memoFree st.memo C →
      memoFree st'.memo C ∧ (∀ c ∈ C, c ∉ Δ) ∧
      (∀ k s bv, (k, Val.list [Val.str s, bv]) ∈ l → s ∈ C →
        ∀ raw, r ≠ .ok raw)

/-- The guarantees of the top-level target loop. -/
structure TS (g : Graph) (st : St) (r : Except Err Unit) (st' : St)
    (Δ : List String) : Prop where
  hinv : st'.invoked = st.invoked ++ Δ
  hmono : memoMono st st'
  hev : st'.events = st.events ++ errEvents r
  hfresh : ∀ m ∈ Δ, st.memo.lookup m = Option.none
  hgain : ∀ m, (st'.memo.lookup m).isSome = true →
      (st.memo.lookup m).isSome = true ∨ m ∈ Δ
  hnodup : Δ.Nodup
  hdeps : ∀ m ∈ Δ, ∀ s, RefEdge g m s → (st'.memo.lookup s).isSome = true
  hfail : ∀ n msg, r = .error (.handlerErr n msg) →
      st'.memo.lookup n = Option.none

/-! ## Run invariants: helper lemmas -/

theorem memoMono_trans {s1 s2 s3 : St} (h1 : memoMono s1 s2)
    (h2 : memoMono s2 s3) : memoMono s1 s3 :=
  fun k v h => h2 k v (h1 k v h)

theorem isSome_mono {st st' : St} (h : memoMono st st') (m : String)
    (hs : (st.memo.lookup m).isSome = true) :
    (st'.memo.lookup m).isSome = true := by
  cases hv : st.memo.lookup m with
  | some v => rw [h m v hv]; rfl
  | none => rw [hv] at hs; cases hs

theorem fresh_of_mono {st st' : St} (h : memoMono st st') (m : String)
    (hf : st'.memo.lookup m = Option.none) :
    st.memo.lookup m = Option.none := by
  cases hv : st.memo.lookup m with
  | some v => rw [h m v hv] at hf; cases hf
  | none => rfl

theorem freshPath_of_mono {g : Graph} {st st' : St} (h : memoMono st st')
    {a b : String} (hp : FreshPath g st'.memo a b) :
    FreshPath g st.memo a b := by
  induction hp with
  | refl n hn => exact .refl n (fresh_of_mono h n hn)
  | step n s m hn e p ih => exact .step n s m (fresh_of_mono h n hn) e ih

theorem freshPath_chain {g : Graph} {memo : List (String × Val)} {a b : String}
    (h : FreshPath g memo a b) :
    ∃ L : List String, L ≠ [] ∧ L.head? = some a ∧ L.getLast? = some b ∧
      (∀ x ∈ L, memo.lookup x = Option.none) ∧ List.Chain' (RefEdge g) L := by
  induction h with
  | refl n hn =>
    exact ⟨[n], by simp, rfl, rfl, by simpa using hn, by simp⟩
  | step n s m hn e p ih =>
    obtain ⟨L, hne, hhead, hlast, hfr, hch⟩ := ih
    refine ⟨n :: L, by simp, rfl, ?_, ?_, ?_⟩
    · cases L with
      | nil => cases hne rfl
      | cons x xs => rw [List.getLast?_cons_cons]; exact hlast
    · intro y hy
      rcases List.mem_cons.mp hy with h1 | h1
      · exact h1 ▸ hn
      · exact hfr y h1
    · rw [List.chain'_cons']
      refine ⟨?_, hch⟩
      intro y hy
      rw [Option.mem_def, hhead] at hy
      injection hy with hy
      rw [← hy]
      exact e

theorem chain'_mem_succ {R : String → String → Prop} (L : List String)
    (hch : List.Chain' R L) :
    ∀ c ∈ L, (∃ c' ∈ L, R c c') ∨ L.getLast? = some c := by
  induction L with
  | nil => intro c hc; cases hc
  | cons x xs ih =>
    intro c hc
    cases xs with
    | nil =>
      rcases List.mem_cons.mp hc with h1 | h1
      · right; rw [h1]; rfl
      · cases h1
    | cons y ys =>
      rw [List.chain'_cons] at hch
      rcases List.mem_cons.mp hc with h1 | h1
      · exact Or.inl ⟨y, by simp, h1 ▸ hch.1⟩
      · rcases ih hch.2 c h1 with h2 | h2
        · obtain ⟨c', hc', hr⟩ := h2
          exact Or.inl ⟨c', List.mem_cons_of_mem x hc', hr⟩
        · right
          rw [List.getLast?_cons_cons]
          exact h2

theorem cyc_of_freshPath (g : Graph) (memo : List (String × Val))
    (s n : String) (hfp : FreshPath g memo s n) (hedge : RefEdge g n s)
    (hn : memo.lookup n = Option.none) :
    ∃ C : List String, CycSet g C ∧ memoFree memo C ∧ n ∈ C := by
  obtain ⟨L, hne, hhead, hlast, hfr, hch⟩ := freshPath_chain hfp
  have hsL : s ∈ L := by
    cases L with
    | nil => cases hne rfl
    | cons x xs =>
      rw [List.head?_cons] at hhead
      injection hhead with hx
      rw [← hx]
      exact List.mem_cons_self x xs
  refine ⟨n :: L, ⟨by simp, ?_⟩, ?_, by simp⟩
  · intro c hc
    rcases List.mem_cons.mp hc with h1 | h1
    · exact ⟨s, List.mem_cons_of_mem n hsL, h1 ▸ hedge⟩
    · rcases chain'_mem_succ L hch c h1 with h2 | h2
      · obtain ⟨c', hc', hr⟩ := h2
        exact ⟨c', List.mem_cons_of_mem n hc', hr⟩
      · have hcn : c = n := by
          rw [hlast] at h2
          injection h2 with h2
          exact h2.symm
        exact ⟨s, List.mem_cons_of_mem n hsL, hcn ▸ hedge⟩
  · intro c hc
    rcases List.mem_cons.mp hc with h1 | h1
    · exact h1 ▸ hn
    · exact hfr c h1

/-! ## Error classification -/

theorem pyIndex_error_shape {l : List Val} {i : Int} {e : Err}
    (h : pyIndex l i = .error e) : e = .indexErr := by
  unfold pyIndex at h
  split at h
  · split at h
    · exact Except.noConfusion h
    · injection h with h
      exact h.symm
  · split at h
    · split at h
      · exact Except.noConfusion h
      · injection h with h
        exact h.symm
    · injection h with h
      exact h.symm

theorem slotSelect_error_shape {src bv : Val} {e : Err}
    (h : slotSelect src bv = .error e) : e = .indexErr ∨ e = .typeErr := by
  cases src with
  | tuple l =>
    cases bv with
    | int i =>
      simp only [slotSelect] at h
      split at h
      · exact Or.inl (pyIndex_error_shape h)
      · exact Or.inl (pyIndex_error_shape h)
    | bool b =>
      simp only [slotSelect] at h
      split at h
      all_goals split at h
      all_goals exact Or.inl (pyIndex_error_shape h)
    | float q =>
      simp only [slotSelect] at h
      split at h
      · injection h with h
        exact Or.inr h.symm
      · exact Or.inl (pyIndex_error_shape h)
    | none =>
      simp only [slotSelect] at h
      injection h with h
      exact Or.inr h.symm
    | str s =>
      simp only [slotSelect] at h
      injection h with h
      exact Or.inr h.symm
    | list l2 =>
      simp only [slotSelect] at h
      injection h with h
      exact Or.inr h.symm
    | tuple l2 =>
      simp only [slotSelect] at h
      injection h with h
      exact Or.inr h.symm
    | arr t =>
      simp only [slotSelect] at h
      injection h with h
      exact Or.inr h.symm
  | none => exact Except.noConfusion h
  | bool b => exact Except.noConfusion h
  | int n => exact Except.noConfusion h
  | float q => exact Except.noConfusion h
  | str s2 => exact Except.noConfusion h
  | list l2 => exact Except.noConfusion h
  | arr t => exact Except.noConfusion h

theorem slotSelect_error_emits {src bv : Val} {e : Err}
    (h : slotSelect src bv = .error e) : emits e = false := by
  rcases slotSelect_error_shape h with he | he <;> rw [he] <;> rfl

theorem prepareRequired_error_name {name : String} {cfg : ParamCfg}
    {raw : List (String × Val)} {e : Err}
    (h : prepareRequired name cfg raw = .error e) : e = .validationErr name := by
  unfold prepareRequired at h
  split at h
  · injection h with h
    exact h.symm
  · exact Except.noConfusion h

theorem validate_error_shape {cls : NodeCls} {raw : List (String × Val)} {e : Err}
    (h : validate_and_prepare_inputs cls raw = .error e) :
    ∃ name, e = .validationErr name := by
  unfold validate_and_prepare_inputs at h
  cases hr : runRequired cls.input_required raw [] with
  | error e0 =>
    rw [hr] at h
    injection h with h
    obtain ⟨p, _, hpe⟩ := runRequired_error_source _ _ _ _ hr
    rw [h] at hpe
    exact ⟨p.1, prepareRequired_error_name hpe⟩
  | ok acc =>
    rw [hr] at h
    exact Except.noConfusion h

/-! ## Input-loop invariants -/

theorem QS_nil (reg : Registry) (g : Graph) (st : St) :
    QS reg g [] st (.ok []) st [] := by
  refine ⟨by simp, fun _ _ h => h, by simp [errEvents], ?_, ?_, ?_, by simp,
    ?_, ?_, ?_, ?_, ?_⟩
  · intro m hm; cases hm
  · intro m hm; cases hm
  · intro m h; exact Or.inl h
  · intro m hm; cases hm
  · intro m hm; cases hm
  · intro n msg h; exact Except.noConfusion h
  · intro raw _ k s bv hmem; cases hmem
  · intro C _ hfree
    exact ⟨hfree, fun c _ hc => (List.not_mem_nil c) hc,
      fun k s bv hmem _ _ _ => (List.not_mem_nil _) hmem⟩

theorem QS_cons_fall (reg : Registry) (g : Graph)
    (res : String → St → Except Err Val × St) (k : String) (v : Val)
    (rest : List (String × Val)) (st : St)
    (hnotref : ∀ s' bv', v ≠ Val.list [Val.str s', bv'])
    (heq : resolveInputsWith res ((k, v) :: rest) st =
      (match resolveInputsWith res rest st with
       | (.error e, st1) => (.error e, st1)
       | (.ok tail, st1) => (.ok ((k, v) :: tail), st1)))
    (hQ : ∃ Δ, QS reg g rest st (resolveInputsWith res rest st).1
        (resolveInputsWith res rest st).2 Δ) :
    ∃ Δ, QS reg g ((k, v) :: rest) st
      (resolveInputsWith res ((k, v) :: rest) st).1
      (resolveInputsWith res ((k, v) :: rest) st).2 Δ := by
  obtain ⟨Δ, hq⟩ := hQ
  refine ⟨Δ, ?_⟩
  rw [heq]
  rcases hrw : resolveInputsWith res rest st with ⟨r1, st1⟩
  rw [hrw] at hq
  have hlift : ∀ m ∈ Δ, ∃ k2 s bv, (k2, Val.list [Val.str s, bv]) ∈ (k, v) :: rest ∧
      FreshPath g st.memo s m := by
    intro m hm
    obtain ⟨k2, s, bv, hmem, hp⟩ := hq.hpath m hm
    exact ⟨k2, s, bv, List.mem_cons_of_mem _ hmem, hp⟩
  have hheadcase : ∀ (k2 s : String) (bv : Val),
      (k2, Val.list [Val.str s, bv]) ∈ (k, v) :: rest →
      ((k2, Val.list [Val.str s, bv]) ∈ rest ∨ False) := by
    intro k2 s bv hmem
    rcases List.mem_cons.mp hmem with h1 | h1
    · exact Or.inr (hnotref s bv (congrArg Prod.snd h1).symm)
    · exact Or.inl h1
  cases r1 with
  | error e =>
    exact ⟨hq.hinv, hq.hmono, hq.hev, hq.hfresh, hq.hmemod, hq.hgain,
      hq.hnodup, hlift, hq.hdeps, hq.hfail,
      fun raw h => Except.noConfusion h,
      fun C hC hfree =>
        ⟨(hq.hcyc C hC hfree).1, (hq.hcyc C hC hfree).2.1,
          fun _ _ _ _ _ raw h => Except.noConfusion h⟩⟩
  | ok tail =>
    refine ⟨hq.hinv, hq.hmono, hq.hev, hq.hfresh, ?_, hq.hgain,
      hq.hnodup, hlift, hq.hdeps, ?_, ?_, ?_⟩
    · intro m hm
      rcases hq.hmemod m hm with h1 | ⟨msg, h1⟩
      · exact Or.inl h1
      · exact Except.noConfusion h1
    · intro n msg h
      exact Except.noConfusion h
    · intro raw _ k2 s bv hmem
      rcases hheadcase k2 s bv hmem with h1 | h1
      · exact hq.hrefs tail rfl k2 s bv h1
      · cases h1
    · intro C hC hfree
      refine ⟨(hq.hcyc C hC hfree).1, (hq.hcyc C hC hfree).2.1, ?_⟩
      intro k2 s bv hmem hsC raw h
      rcases hheadcase k2 s bv hmem with h1 | h1
      · exact (hq.hcyc C hC hfree).2.2 k2 s bv h1 hsC tail rfl
      · cases h1

theorem QS_cons_badsrc (reg : Registry) (g : Graph) (k : String) (a b : Val)
    (rest : List (String × Val)) (st : St) :
    QS reg g ((k, Val.list [a, b]) :: rest) st (.error (.missingNode a)) st [] := by
  refine ⟨by simp, fun _ _ h => h, by simp [errEvents, emits], ?_, ?_, ?_,
    by simp, ?_, ?_, ?_, ?_, ?_⟩
  · intro m hm; cases hm
  · intro m hm; cases hm
  · intro m h; exact Or.inl h
  · intro m hm; cases hm
  · intro m hm; cases hm
  · intro n msg h
    injection h with h
    exact Err.noConfusion h
  · intro raw h; exact Except.noConfusion h
  · intro C _ hfree
    exact ⟨hfree, fun c _ hc => (List.not_mem_nil c) hc,
      fun _ _ _ _ _ raw h => Except.noConfusion h⟩

theorem ref_pair_src {k2 s k src : String} {bv b : Val}
    (h : (k2, Val.list [Val.str s, bv]) = (k, Val.list [Val.str src, b])) :
    s = src := by
  simp only [Prod.mk.injEq, Val.list.injEq, List.cons.injEq, Val.str.injEq] at h
  exact h.2.1

theorem QS_cons_ref (reg : Registry) (g : Graph)
    (res : String → St → Except Err Val × St)
    (H : ∀ s stx, ∃ Δ, RS reg g s stx (res s stx).1 (res s stx).2 Δ)
    (k src : String) (b : Val) (rest : List (String × Val)) (st : St)
    (ih : ∀ stx, ∃ Δ, QS reg g rest stx (resolveInputsWith res rest stx).1
        (resolveInputsWith res rest stx).2 Δ) :
    ∃ Δ, QS reg g ((k, Val.list [Val.str src, b]) :: rest) st
      (resolveInputsWith res ((k, Val.list [Val.str src, b]) :: rest) st).1
      (resolveInputsWith res ((k, Val.list [Val.str src, b]) :: rest) st).2 Δ := by
  have hred : resolveInputsWith res ((k, Val.list [Val.str src, b]) :: rest) st =
      (match res src st with
       | (.error e, st1) => (.error e, st1)
       | (.ok out, st1) =>
         match slotSelect out b with
         | .error e => (.error e, st1)
         | .ok sel =>
           match resolveInputsWith res rest st1 with
           | (.error e, st2) => (.error e, st2)
           | (.ok tail, st2) => (.ok ((k, sel) :: tail), st2)) := rfl
  rw [hred]
  obtain ⟨Δ1, hR⟩ := H src st
  rcases h1 : res src st with ⟨r1, st1⟩
  rw [h1] at hR
  dsimp only at hR
  have headmem : (k, Val.list [Val.str src, b]) ∈
      (k, Val.list [Val.str src, b]) :: rest := List.mem_cons_self _ _
  cases r1 with
  | error e =>
    dsimp only
    refine ⟨Δ1, hR.hinv, hR.hmono, hR.hev, hR.hfresh, ?_, hR.hgain,
      hR.hnodup, ?_, hR.hdeps, ?_,
      fun raw h => Except.noConfusion h, ?_⟩
    · intro m hm
      rcases hR.hmemod m hm with h | ⟨msg, hmsg⟩
      · exact Or.inl h
      · refine Or.inr ⟨msg, ?_⟩
        injection hmsg with hmsg
        rw [hmsg]
    · intro m hm
      exact ⟨k, src, b, headmem, hR.hpath m hm⟩
    · intro n msg h
      refine hR.hfail n msg ?_
      injection h with h
      rw [h]
    · intro C hC hfree
      exact ⟨(hR.hcyc C hC hfree).1, (hR.hcyc C hC hfree).2.1,
        fun _ _ _ _ _ raw h => Except.noConfusion h⟩
  | ok out =>
    dsimp only
    have hmemod1 : ∀ m ∈ Δ1, (st1.memo.lookup m).isSome = true := by
      intro m hm
      rcases hR.hmemod m hm with h | ⟨msg, hmsg⟩
      · exact h
      · exact Except.noConfusion hmsg
    cases h2 : slotSelect out b with
    | error e =>
      dsimp only
      refine ⟨Δ1, hR.hinv, hR.hmono, ?_, hR.hfresh, ?_, hR.hgain, hR.hnodup,
        ?_, hR.hdeps, ?_, fun raw h => Except.noConfusion h, ?_⟩
      · rw [hR.hev]
        simp only [errEvents, slotSelect_error_emits h2]
        simp
      · intro m hm
        exact Or.inl (hmemod1 m hm)
      · intro m hm
        exact ⟨k, src, b, headmem, hR.hpath m hm⟩
      · intro n msg h
        injection h with h
        rcases slotSelect_error_shape h2 with he | he <;> rw [he] at h <;>
          exact Err.noConfusion h
      · intro C hC hfree
        exact ⟨(hR.hcyc C hC hfree).1, (hR.hcyc C hC hfree).2.1,
          fun _ _ _ _ _ raw h => Except.noConfusion h⟩
    | ok sel =>
      dsimp only
      obtain ⟨Δ2, hQ2⟩ := ih st1
      rcases h3 : resolveInputsWith res rest st1 with ⟨r2, st2⟩
      rw [h3] at hQ2
      dsimp only at hQ2
      have hmono12 : memoMono st st2 := memoMono_trans hR.hmono hQ2.hmono
      have hfresh2 : ∀ m ∈ Δ2, st.memo.lookup m = Option.none :=
        fun m hm => fresh_of_mono hR.hmono m (hQ2.hfresh m hm)
      have hnodup12 : (Δ1 ++ Δ2).Nodup := by
        refine List.Nodup.append hR.hnodup hQ2.hnodup ?_
        intro m hm1 hm2
        have h1s := hmemod1 m hm1
        rw [hQ2.hfresh m hm2] at h1s
        cases h1s
      have hinv12 : st2.invoked = st.invoked ++ (Δ1 ++ Δ2) := by
        rw [hQ2.hinv, hR.hinv, List.append_assoc]
      have hfresh12 : ∀ m ∈ Δ1 ++ Δ2, st.memo.lookup m = Option.none := by
        intro m hm
        rcases List.mem_append.mp hm with h | h
        · exact hR.hfresh m h
        · exact hfresh2 m h
      have hgain12 : ∀ m, (st2.memo.lookup m).isSome = true →
          (st.memo.lookup m).isSome = true ∨ m ∈ Δ1 ++ Δ2 := by
        intro m hs
        rcases hQ2.hgain m hs with h | h
        · rcases hR.hgain m h with h' | h'
          · exact Or.inl h'
          · exact Or.inr (List.mem_append.mpr (Or.inl h'))
        · exact Or.inr (List.mem_append.mpr (Or.inr h))
      have hpath12 : ∀ m ∈ Δ1 ++ Δ2, ∃ k2 s bv,
          (k2, Val.list [Val.str s, bv]) ∈ (k, Val.list [Val.str src, b]) :: rest ∧
          FreshPath g st.memo s m := by
        intro m hm
        rcases List.mem_append.mp hm with h | h
        · exact ⟨k, src, b, headmem, hR.hpath m h⟩
        · obtain ⟨k2, s, bv, hmem, hp⟩ := hQ2.hpath m h
          exact ⟨k2, s, bv, List.mem_cons_of_mem _ hmem,
            freshPath_of_mono hR.hmono hp⟩
      have hdeps12 : ∀ m ∈ Δ1 ++ Δ2, ∀ s, RefEdge g m s →
          (st2.memo.lookup s).isSome = true := by
        intro m hm s hedge
        rcases List.mem_append.mp hm with h | h
        · exact isSome_mono hQ2.hmono s (hR.hdeps m h s hedge)
        · exact hQ2.hdeps m h s hedge
      cases r2 with
      | error e =>
        dsimp only
        refine ⟨Δ1 ++ Δ2, hinv12, hmono12, ?_, hfresh12, ?_, hgain12,
          hnodup12, hpath12, hdeps12, hQ2.hfail,
          fun raw h => Except.noConfusion h, ?_⟩
        · rw [hQ2.hev, hR.hev]
          simp [errEvents]
        · intro m hm
          rcases List.mem_append.mp hm with h | h
          · exact Or.inl (isSome_mono hQ2.hmono m (hmemod1 m h))
          · exact hQ2.hmemod m h
        · intro C hC hfree
          have o1 := hR.hcyc C hC hfree
          have o2 := hQ2.hcyc C hC o1.1
          refine ⟨o2.1, ?_, fun _ _ _ _ _ raw h => Except.noConfusion h⟩
          intro c hcC hcm
          rcases List.mem_append.mp hcm with h | h
          · exact o1.2.1 c hcC h
          · exact o2.2.1 c hcC h
      | ok tail =>
        dsimp only
        refine ⟨Δ1 ++ Δ2, hinv12, hmono12, ?_, hfresh12, ?_, hgain12,
          hnodup12, hpath12, hdeps12, ?_, ?_, ?_⟩
        · rw [hQ2.hev, hR.hev]
          simp [errEvents]
        · intro m hm
          rcases List.mem_append.mp hm with h | h
          · exact Or.inl (isSome_mono hQ2.hmono m (hmemod1 m h))
          · rcases hQ2.hmemod m h with h' | ⟨msg, hmsg⟩
            · exact Or.inl h'
            · exact Except.noConfusion hmsg
        · intro n msg h
          exact Except.noConfusion h
        · intro raw _ k2 s bv hmem
          rcases List.mem_cons.mp hmem with hh | hh
          · rw [ref_pair_src hh]
            have hsome := hR.hres out rfl
            exact isSome_mono hQ2.hmono src (by rw [hsome]; rfl)
          · exact hQ2.hrefs tail rfl k2 s bv hh
        · intro C hC hfree
          have o1 := hR.hcyc C hC hfree
          have o2 := hQ2.hcyc C hC o1.1
          refine ⟨o2.1, ?_, ?_⟩
          · intro c hcC hcm
            rcases List.mem_append.mp hcm with h | h
            · exact o1.2.1 c hcC h
            · exact o2.2.1 c hcC h
          · intro k2 s bv hmem hsC raw h
            rcases List.mem_cons.mp hmem with hh | hh
            · rw [ref_pair_src hh] at hsC
              exact absurd rfl (o1.2.2 hsC out)
            · exact absurd rfl (o2.2.2 k2 s bv hh hsC tail)

/-! ## Resolver invariants -/

theorem RS_hit (reg : Registry) (g : Graph) (nid : String) (st : St) (v : Val)
    (h : st.memo.lookup nid = some v) : RS reg g nid st (.ok v) st [] := by
  refine ⟨by simp, fun _ _ hh => hh, by simp [errEvents], ?_, ?_, ?_, by simp,
    ?_, ?_, ?_, ?_, ?_⟩
  · intro m hm; cases hm
  · intro m hm; cases hm
  · intro m hh; exact Or.inl hh
  · intro m hm; cases hm
  · intro m hm; cases hm
  · intro n msg hh; exact Except.noConfusion hh
  · intro w hw
    injection hw with hw
    rw [← hw]
    exact h
  · intro C _ hfree
    refine ⟨hfree, fun c _ hc => (List.not_mem_nil c) hc, ?_⟩
    intro hin v' _
    rw [hfree nid hin] at h
    exact Option.noConfusion h

theorem RS_err_trivial (reg : Registry) (g : Graph) (nid : String) (st : St)
    (e : Err) (he : emits e = false)
    (hne : ∀ n msg, e ≠ .handlerErr n msg) :
    RS reg g nid st (.error e) st [] := by
  refine ⟨by simp, fun _ _ hh => hh, by simp [errEvents, he], ?_, ?_, ?_,
    by simp, ?_, ?_, ?_, ?_, ?_⟩
  · intro m hm; cases hm
  · intro m hm; cases hm
  · intro m hh; exact Or.inl hh
  · intro m hm; cases hm
  · intro m hm; cases hm
  · intro n msg hh
    injection hh with hh
    exact absurd hh (hne n msg)
  · intro v hv; exact Except.noConfusion hv
  · intro C _ hfree
    exact ⟨hfree, fun c _ hc => (List.not_mem_nil c) hc,
      fun _ v hh => Except.noConfusion hh⟩

theorem crux_not_invoked (reg : Registry) (g : Graph) (nid : String) (st : St)
    (nd : NodeData) (raw : List (String × Val)) (st1 : St) (Δd : List String)
    (hm : st.memo.lookup nid = Option.none)
    (hg : g.lookup nid = some nd)
    (hQ : QS reg g nd.inputs st (.ok raw) st1 Δd) :
    nid ∉ Δd := by
  intro hmem
  obtain ⟨k0, s0, bv0, hmem0, hp0⟩ := hQ.hpath nid hmem
  have hedge : RefEdge g nid s0 := ⟨nd, k0, bv0, hg, hmem0⟩
  obtain ⟨C, hC, hfree, hnC⟩ := cyc_of_freshPath g st.memo s0 nid hp0 hedge hm
  exact (hQ.hcyc C hC hfree).2.1 nid hnC hmem

theorem nid_not_in_cycle (reg : Registry) (g : Graph) (nid : String) (st : St)
    (nd : NodeData) (raw : List (String × Val)) (st1 : St) (Δd : List String)
    (hg : g.lookup nid = some nd)
    (hQ : QS reg g nd.inputs st (.ok raw) st1 Δd) :
    ∀ C, CycSet g C → memoFree st.memo C → nid ∉ C := by
  intro C hC hfree hin
  obtain ⟨c', hc'C, hedge⟩ := hC.2 nid hin
  obtain ⟨nd0, k0, bv0, hg0, hmem0⟩ := hedge
  rw [hg] at hg0
  injection hg0 with hg0
  have hmem1 : (k0, Val.list [Val.str c', bv0]) ∈ nd.inputs := by
    rw [hg0]
    exact hmem0
  exact absurd rfl ((hQ.hcyc C hC hfree).2.2 k0 c' bv0 hmem1 hc'C raw)

theorem edge_ref_of_nid (g : Graph) (nid : String) (nd : NodeData)
    (hg : g.lookup nid = some nd) :
    ∀ s, RefEdge g nid s →
      ∃ k0 bv0, (k0, Val.list [Val.str s, bv0]) ∈ nd.inputs := by
  rintro s ⟨nd0, k0, bv0, hg0, hmem0⟩
  rw [hg] at hg0
  injection hg0 with hg0
  exact ⟨k0, bv0, by rw [hg0]; exact hmem0⟩

theorem RS_frame_emit (reg : Registry) (g : Graph) (nid : String) (st : St)
    (nd : NodeData) (raw : List (String × Val)) (st1 : St) (Δd : List String)
    (e : Err)
    (hm : st.memo.lookup nid = Option.none)
    (hg : g.lookup nid = some nd)
    (hQ : QS reg g nd.inputs st (.ok raw) st1 Δd)
    (hemits : emits e = true)
    (hne : ∀ n msg, e ≠ .handlerErr n msg) :
    RS reg g nid st (.error e) (st1.emit (.error (errMsg e))) Δd := by
  have hstep : ∀ m ∈ Δd, FreshPath g st.memo nid m := by
    intro m hmem
    obtain ⟨k0, s0, bv0, hmem0, hp0⟩ := hQ.hpath m hmem
    exact FreshPath.step nid s0 m hm ⟨nd, k0, bv0, hg, hmem0⟩ hp0
  have hmemod1 : ∀ m ∈ Δd, (st1.memo.lookup m).isSome = true := by
    intro m hmem
    rcases hQ.hmemod m hmem with h | ⟨msg, hmsg⟩
    · exact h
    · exact Except.noConfusion hmsg
  refine ⟨hQ.hinv, hQ.hmono, ?_, hQ.hfresh, ?_, hQ.hgain, hQ.hnodup, hstep,
    hQ.hdeps, ?_, ?_, ?_⟩
  · show st1.events ++ [Event.error (errMsg e)] = st.events ++ _
    rw [hQ.hev]
    simp [errEvents, hemits]
  · intro m hmem
    exact Or.inl (hmemod1 m hmem)
  · intro n msg hh
    injection hh with hh
    exact absurd hh (hne n msg)
  · intro v hv; exact Except.noConfusion hv
  · intro C hC hfree
    exact ⟨(hQ.hcyc C hC hfree).1, (hQ.hcyc C hC hfree).2.1,
      fun _ v hh => Except.noConfusion hh⟩

theorem resolveInputsWith_spec (reg : Registry) (g : Graph)
    (res : String → St → Except Err Val × St)
    (H : ∀ s stx, ∃ Δ, RS reg g s stx (res s stx).1 (res s stx).2 Δ) :
    ∀ (l : List (String × Val)) (st : St),
      ∃ Δ, QS reg g l st (resolveInputsWith res l st).1
        (resolveInputsWith res l st).2 Δ := by
  intro l
  induction l with
  | nil => intro st; exact ⟨[], QS_nil reg g st⟩
  | cons p rest ih =>
    rcases p with ⟨k, v⟩
    intro st
    cases v with
    | none =>
      exact QS_cons_fall reg g res k Val.none rest st
        (fun s' bv' h => Val.noConfusion h) rfl (ih st)
    | bool x =>
      exact QS_cons_fall reg g res k (Val.bool x) rest st
        (fun s' bv' h => Val.noConfusion h) rfl (ih st)
    | int n =>
      exact QS_cons_fall reg g res k (Val.int n) rest st
        (fun s' bv' h => Val.noConfusion h) rfl (ih st)
    | float q =>
      exact QS_cons_fall reg g res k (Val.float q) rest st
        (fun s' bv' h => Val.noConfusion h) rfl (ih st)
    | str s0 =>
      exact QS_cons_fall reg g res k (Val.str s0) rest st
        (fun s' bv' h => Val.noConfusion h) rfl (ih st)
    | tuple l0 =>
      exact QS_cons_fall reg g res k (Val.tuple l0) rest st
        (fun s' bv' h => Val.noConfusion h) rfl (ih st)
    | arr t =>
      exact QS_cons_fall reg g res k (Val.arr t) rest st
        (fun s' bv' h => Val.noConfusion h) rfl (ih st)
    | list l0 =>
      match l0 with
      | [] =>
        exact QS_cons_fall reg g res k (Val.list []) rest st
          (fun s' bv' h => by simp at h) rfl (ih st)
      | [a] =>
        exact QS_cons_fall reg g res k (Val.list [a]) rest st
          (fun s' bv' h => by simp at h) rfl (ih st)
      | a :: b :: c :: l3 =>
        exact QS_cons_fall reg g res k (Val.list (a :: b :: c :: l3)) rest st
          (fun s' bv' h => by simp at h) rfl (ih st)
      | [a, b] =>
        cases a with
        | str src => exact QS_cons_ref reg g res H k src b rest st ih
        | none => exact ⟨[], QS_cons_badsrc reg g k Val.none b rest st⟩
        | bool x => exact ⟨[], QS_cons_badsrc reg g k (Val.bool x) b rest st⟩
        | int n => exact ⟨[], QS_cons_badsrc reg g k (Val.int n) b rest st⟩
        | float q => exact ⟨[], QS_cons_badsrc reg g k (Val.float q) b rest st⟩
        | list l4 => exact ⟨[], QS_cons_badsrc reg g k (Val.list l4) b rest st⟩
        | tuple l4 => exact ⟨[], QS_cons_badsrc reg g k (Val.tuple l4) b rest st⟩
        | arr t => exact ⟨[], QS_cons_badsrc reg g k (Val.arr t) b rest st⟩

theorem RS_frame_handlerr (reg : Registry) (g : Graph) (nid : String) (st : St)
    (nd : NodeData) (raw : List (String × Val)) (st1 : St) (Δd : List String)
    (msg : String)
    (hm : st.memo.lookup nid = Option.none)
    (hg : g.lookup nid = some nd)
    (hQ : QS reg g nd.inputs st (.ok raw) st1 Δd) :
    RS reg g nid st (.error (.handlerErr nid msg))
      { memo := st1.memo, events := st1.events ++ [.error msg],
        invoked := st1.invoked ++ [nid] } (Δd ++ [nid]) := by
  have hnin : nid ∉ Δd := crux_not_invoked reg g nid st nd raw st1 Δd hm hg hQ
  have hmemod1 : ∀ m ∈ Δd, (st1.memo.lookup m).isSome = true := by
    intro m hmem
    rcases hQ.hmemod m hmem with h | ⟨msg2, hmsg⟩
    · exact h
    · exact Except.noConfusion hmsg
  have hnf : st1.memo.lookup nid = Option.none := by
    cases hs : st1.memo.lookup nid with
    | none => rfl
    | some w =>
      rcases hQ.hgain nid (by rw [hs]; rfl) with h | h
      · rw [hm] at h; cases h
      · exact absurd h hnin
  have hstep : ∀ m ∈ Δd, FreshPath g st.memo nid m := by
    intro m hmem
    obtain ⟨k0, s0, bv0, hmem0, hp0⟩ := hQ.hpath m hmem
    exact FreshPath.step nid s0 m hm ⟨nd, k0, bv0, hg, hmem0⟩ hp0
  have hCnot := nid_not_in_cycle reg g nid st nd raw st1 Δd hg hQ
  refine ⟨?_, hQ.hmono, ?_, ?_, ?_, ?_, ?_, ?_, ?_, ?_, ?_, ?_⟩
  · show st1.invoked ++ [nid] = st.invoked ++ (Δd ++ [nid])
    rw [hQ.hinv, List.append_assoc]
  · show st1.events ++ [Event.error msg] = st.events ++ _
    rw [hQ.hev]
    simp [errEvents, emits, errMsg]
  · intro m hmem
    rcases List.mem_append.mp hmem with h | h
    · exact hQ.hfresh m h
    · rw [List.mem_singleton.mp h]
      exact hm
  · intro m hmem
    rcases List.mem_append.mp hmem with h | h
    · exact Or.inl (hmemod1 m h)
    · refine Or.inr ⟨msg, ?_⟩
      rw [List.mem_singleton.mp h]
  · intro m hs
    rcases hQ.hgain m hs with h | h
    · exact Or.inl h
    · exact Or.inr (List.mem_append.mpr (Or.inl h))
  · rw [List.nodup_append]
    refine ⟨hQ.hnodup, by simp, ?_⟩
    intro a ha hb
    rw [List.mem_singleton.mp hb] at ha
    exact hnin ha
  · intro m hmem
    rcases List.mem_append.mp hmem with h | h
    · exact hstep m h
    · rw [List.mem_singleton.mp h]
      exact FreshPath.refl nid hm
  · intro m hmem s hedge
    rcases List.mem_append.mp hmem with h | h
    · exact hQ.hdeps m h s hedge
    · rw [List.mem_singleton.mp h] at hedge
      obtain ⟨k0, bv0, hmem0⟩ := edge_ref_of_nid g nid nd hg s hedge
      exact hQ.hrefs raw rfl k0 s bv0 hmem0
  · intro n msg2 hh
    injection hh with hh
    injection hh with h1 h2
    show st1.memo.lookup n = Option.none
    rw [← h1]
    exact hnf
  · intro v hv; exact Except.noConfusion hv
  · intro C hC hfree
    have hnidC := hCnot C hC hfree
    refine ⟨(hQ.hcyc C hC hfree).1, ?_, fun _ v hh => Except.noConfusion hh⟩
    intro c hcC hcm
    rcases List.mem_append.mp hcm with h | h
    · exact (hQ.hcyc C hC hfree).2.1 c hcC h
    · rw [List.mem_singleton.mp h] at hcC
      exact hnidC hcC

theorem RS_frame_ok (reg : Registry) (g : Graph) (nid : String) (st : St)
    (nd : NodeData) (raw : List (String × Val)) (st1 : St) (Δd : List String)
    (out : Val)
    (hm : st.memo.lookup nid = Option.none)
    (hg : g.lookup nid = some nd)
    (hQ : QS reg g nd.inputs st (.ok raw) st1 Δd) :
    RS reg g nid st (.ok out)
      { memo := dictSet st1.memo nid out, events := st1.events,
        invoked := st1.invoked ++ [nid] } (Δd ++ [nid]) := by
  have hnin : nid ∉ Δd := crux_not_invoked reg g nid st nd raw st1 Δd hm hg hQ
  have hmemod1 : ∀ m ∈ Δd, (st1.memo.lookup m).isSome = true := by
    intro m hmem
    rcases hQ.hmemod m hmem with h | ⟨msg2, hmsg⟩
    · exact h
    · exact Except.noConfusion hmsg
  have hpres : ∀ m, (st1.memo.lookup m).isSome = true →
      ((dictSet st1.memo nid out).lookup m).isSome = true := by
    intro m hs
    by_cases hmn : m = nid
    · rw [hmn, lookup_dictSet_self]; rfl
    · rw [lookup_dictSet_ne _ _ _ _ hmn]; exact hs
  have hstep : ∀ m ∈ Δd, FreshPath g st.memo nid m := by
    intro m hmem
    obtain ⟨k0, s0, bv0, hmem0, hp0⟩ := hQ.hpath m hmem
    exact FreshPath.step nid s0 m hm ⟨nd, k0, bv0, hg, hmem0⟩ hp0
  have hCnot := nid_not_in_cycle reg g nid st nd raw st1 Δd hg hQ
  refine ⟨?_, ?_, ?_, ?_, ?_, ?_, ?_, ?_, ?_, ?_, ?_, ?_⟩
  · show st1.invoked ++ [nid] = st.invoked ++ (Δd ++ [nid])
    rw [hQ.hinv, List.append_assoc]
  · intro kk vv hh
    by_cases hkn : kk = nid
    · rw [hkn, hm] at hh
      exact Option.noConfusion hh
    · show (dictSet st1.memo nid out).lookup kk = some vv
      rw [lookup_dictSet_ne _ _ _ _ hkn]
      exact hQ.hmono kk vv hh
  · show st1.events = st.events ++ _
    rw [hQ.hev]
    simp [errEvents]
  · intro m hmem
    rcases List.mem_append.mp hmem with h | h
    · exact hQ.hfresh m h
    · rw [List.mem_singleton.mp h]
      exact hm
  · intro m hmem
    rcases List.mem_append.mp hmem with h | h
    · exact Or.inl (hpres m (hmemod1 m h))
    · refine Or.inl ?_
      rw [List.mem_singleton.mp h]
      show ((dictSet st1.memo nid out).lookup nid).isSome = true
      rw [lookup_dictSet_self]
      rfl
  · intro m hs
    by_cases hmn : m = nid
    · exact Or.inr (List.mem_append.mpr (Or.inr (by rw [hmn]; simp)))
    · show _ ∨ _
      rw [show ((dictSet st1.memo nid out).lookup m).isSome =
          (st1.memo.lookup m).isSome from by
        rw [lookup_dictSet_ne _ _ _ _ hmn]] at hs
      rcases hQ.hgain m hs with h | h
      · exact Or.inl h
      · exact Or.inr (List.mem_append.mpr (Or.inl h))
  · rw [List.nodup_append]
    refine ⟨hQ.hnodup, by simp, ?_⟩
    intro a ha hb
    rw [List.mem_singleton.mp hb] at ha
    exact hnin ha
  · intro m hmem
    rcases List.mem_append.mp hmem with h | h
    · exact hstep m h
    · rw [List.mem_singleton.mp h]
      exact FreshPath.refl nid hm
  · intro m hmem s hedge
    rcases List.mem_append.mp hmem with h | h
    · exact hpres s (hQ.hdeps m h s hedge)
    · rw [List.mem_singleton.mp h] at hedge
      obtain ⟨k0, bv0, hmem0⟩ := edge_ref_of_nid g nid nd hg s hedge
      exact hpres s (hQ.hrefs raw rfl k0 s bv0 hmem0)
  · intro n msg hh; exact Except.noConfusion hh
  · intro v hv
    injection hv with hv
    show (dictSet st1.memo nid out).lookup nid = some v
    rw [lookup_dictSet_self, hv]
  · intro C hC hfree
    have hnidC := hCnot C hC hfree
    refine ⟨?_, ?_, fun hin v => absurd hin hnidC⟩
    · intro c hcC
      show (dictSet st1.memo nid out).lookup c = Option.none
      rw [lookup_dictSet_ne _ _ _ _ (fun hh => hnidC (by rw [← hh]; exact hcC))]
      exact (hQ.hcyc C hC hfree).1 c hcC
    · intro c hcC hcm
      rcases List.mem_append.mp hcm with h | h
      · exact (hQ.hcyc C hC hfree).2.1 c hcC h
      · rw [List.mem_singleton.mp h] at hcC
        exact hnidC hcC

theorem resolve_spec (reg : Registry) (g : Graph) :
    ∀ (fuel : Nat) (nid : String) (st : St),
      ∃ Δ, RS reg g nid st (resolve reg g fuel nid st).1
        (resolve reg g fuel nid st).2 Δ := by
  intro fuel
  induction fuel with
  | zero =>
    intro nid st
    cases hm : st.memo.lookup nid with
    | some v =>
      have hr : resolve reg g 0 nid st = (.ok v, st) := by rw [resolve, hm]
      rw [hr]
      exact ⟨[], RS_hit reg g nid st v hm⟩
    | none =>
      have hr : resolve reg g 0 nid st = (.error .outOfFuel, st) := by
        rw [resolve, hm]
      rw [hr]
      exact ⟨[], RS_err_trivial reg g nid st .outOfFuel rfl
        (fun n msg h => Err.noConfusion h)⟩
  | succ fuel ih =>
    intro nid st
    cases hm : st.memo.lookup nid with
    | some v =>
      have hr : resolve reg g (fuel + 1) nid st = (.ok v, st) := by
        rw [resolve, hm]
      rw [hr]
      exact ⟨[], RS_hit reg g nid st v hm⟩
    | none =>
      cases hg : g.lookup nid with
      | none =>
        have hr : resolve reg g (fuel + 1) nid st =
            (.error (.missingNode (.str nid)), st) := by
          rw [resolve, hm, hg]
        rw [hr]
        exact ⟨[], RS_err_trivial reg g nid st (.missingNode (.str nid)) rfl
          (fun n msg h => Err.noConfusion h)⟩
      | some nd =>
        have hr : resolve reg g (fuel + 1) nid st =
            (match resolveInputsWith (resolve reg g fuel) nd.inputs st with
             | (.error e, st1) => (.error e, st1)
             | (.ok raw, st1) =>
               match reg.lookup nd.type with
               | Option.none => emitAndFail st1 (.unknownType nd.type)
               | some cls =>
                 match validate_and_prepare_inputs cls raw with
                 | .error e => emitAndFail st1 e
                 | .ok args =>
                   match cls.fn (args.filter (fun p => cls.params.contains p.1)) with
                   | .error msg =>
                     emitAndFail { st1 with invoked := st1.invoked ++ [nid] }
                       (.handlerErr nid msg)
                   | .ok out =>
                     (.ok out,
                       { memo := dictSet st1.memo nid out, events := st1.events,
                         invoked := st1.invoked ++ [nid] })) := by
          rw [resolve, hm, hg]
        rw [hr]
        obtain ⟨Δd, hQ⟩ :=
          resolveInputsWith_spec reg g (resolve reg g fuel) ih nd.inputs st
        rcases hq : resolveInputsWith (resolve reg g fuel) nd.inputs st
          with ⟨rd, st1⟩
        rw [hq] at hQ
        dsimp only at hQ
        cases rd with
        | error e =>
          dsimp only
          have hstep : ∀ m ∈ Δd, FreshPath g st.memo nid m := by
            intro m hmem
            obtain ⟨k0, s0, bv0, hmem0, hp0⟩ := hQ.hpath m hmem
            exact FreshPath.step nid s0 m hm ⟨nd, k0, bv0, hg, hmem0⟩ hp0
          refine ⟨Δd, hQ.hinv, hQ.hmono, hQ.hev, hQ.hfresh, ?_, hQ.hgain,
            hQ.hnodup, hstep, hQ.hdeps, ?_, fun v hv => Except.noConfusion hv, ?_⟩
          · intro m hmem
            rcases hQ.hmemod m hmem with h | ⟨msg, hmsg⟩
            · exact Or.inl h
            · refine Or.inr ⟨msg, ?_⟩
              injection hmsg with hmsg
              rw [hmsg]
          · intro n msg hh
            refine hQ.hfail n msg ?_
            injection hh with hh
            rw [hh]
          · intro C hC hfree
            exact ⟨(hQ.hcyc C hC hfree).1, (hQ.hcyc C hC hfree).2.1,
              fun _ v hh => Except.noConfusion hh⟩
        | ok raw =>
          dsimp only
          cases hreg : reg.lookup nd.type with
          | none =>
            exact ⟨Δd, RS_frame_emit reg g nid st nd raw st1 Δd
              (.unknownType nd.type) hm hg hQ rfl
              (fun n msg h => Err.noConfusion h)⟩
          | some cls =>
            dsimp only
            cases hval : validate_and_prepare_inputs cls raw with
            | error e =>
              obtain ⟨nm, he⟩ := validate_error_shape hval
              subst he
              exact ⟨Δd, RS_frame_emit reg g nid st nd raw st1 Δd
                (.validationErr nm) hm hg hQ rfl
                (fun n msg h => Err.noConfusion h)⟩
            | ok args =>
              dsimp only
              cases hfn : cls.fn (args.filter (fun p => cls.params.contains p.1))
                with
              | error msg =>
                exact ⟨Δd ++ [nid],
                  RS_frame_handlerr reg g nid st nd raw st1 Δd msg hm hg hQ⟩
              | ok out =>
                exact ⟨Δd ++ [nid],
                  RS_frame_ok reg g nid st nd raw st1 Δd out hm hg hQ⟩

theorem runTargets_spec (reg : Registry) (g : Graph) (fuel : Nat) :
    ∀ (ts : List String) (st : St),
      ∃ Δ, TS g st (runTargets reg g fuel ts st).1
        (runTargets reg g fuel ts st).2 Δ := by
  intro ts
  induction ts with
  | nil =>
    intro st
    refine ⟨[], by simp [runTargets], fun _ _ h => h, by simp [runTargets, errEvents],
      ?_, ?_, by simp, ?_, ?_⟩
    · intro m hm; cases hm
    · intro m h; exact Or.inl h
    · intro m hm; cases hm
    · intro n msg h
      simp only [runTargets] at h
      exact Except.noConfusion h
  | cons t rest ih =>
    intro st
    obtain ⟨Δ1, hR⟩ := resolve_spec reg g fuel t st
    have hred : runTargets reg g fuel (t :: rest) st =
        (match resolve reg g fuel t st with
         | (.error e, st1) => (.error e, st1)
         | (.ok _, st1) => runTargets reg g fuel rest st1) := rfl
    rw [hred]
    rcases h1 : resolve reg g fuel t st with ⟨r1, st1⟩
    rw [h1] at hR
    dsimp only at hR
    cases r1 with
    | error e =>
      dsimp only
      refine ⟨Δ1, hR.hinv, hR.hmono, hR.hev, hR.hfresh, hR.hgain, hR.hnodup,
        hR.hdeps, ?_⟩
      intro n msg hh
      refine hR.hfail n msg ?_
      injection hh with hh
      rw [hh]
    | ok v =>
      dsimp only
      obtain ⟨Δ2, hT2⟩ := ih st1
      rcases h2 : runTargets reg g fuel rest st1 with ⟨r2, st2⟩
      rw [h2] at hT2
      dsimp only at hT2
      have hmemod1 : ∀ m ∈ Δ1, (st1.memo.lookup m).isSome = true := by
        intro m hmem
        rcases hR.hmemod m hmem with h | ⟨msg, hmsg⟩
        · exact h
        · exact Except.noConfusion hmsg
      refine ⟨Δ1 ++ Δ2, ?_, memoMono_trans hR.hmono hT2.hmono, ?_, ?_, ?_, ?_,
        ?_, hT2.hfail⟩
      · rw [hT2.hinv, hR.hinv, List.append_assoc]
      · rw [hT2.hev, hR.hev]
        simp [errEvents]
      · intro m hm
        rcases List.mem_append.mp hm with h | h
        · exact hR.hfresh m h
        · exact fresh_of_mono hR.hmono m (hT2.hfresh m h)
      · intro m hs
        rcases hT2.hgain m hs with h | h
        · rcases hR.hgain m h with h' | h'
          · exact Or.inl h'
          · exact Or.inr (List.mem_append.mpr (Or.inl h'))
        · exact Or.inr (List.mem_append.mpr (Or.inr h))
      · rw [List.nodup_append]
        refine ⟨hR.hnodup, hT2.hnodup, ?_⟩
        intro a ha hb
        have h1s := hmemod1 a ha
        rw [hT2.hfresh a hb] at h1s
        cases h1s
      · intro m hm s hedge
        rcases List.mem_append.mp hm with h | h
        · exact isSome_mono hT2.hmono s (hR.hdeps m h s hedge)
        · exact hT2.hdeps m h s hedge

/-! ## Demo registry for the run-level witnesses -/

/-- A constant source node. -/
def constCls : NodeCls where
  input_required := []
  input_optional := []
  OUTPUT_NODE := false
  params := []
  fn := fun _ => .ok (.tuple [.int 5])

/-- A terminal node adding one to its integer input. -/
def addOneCls : NodeCls where
  input_required := [("x", ⟨.tag "INT", []⟩)]
  input_optional := []
  OUTPUT_NODE := true
  params := ["x"]
  fn := fun args =>
    match args.lookup "x" with
    | some (.int n) => .ok (.tuple [.int (n + 1)])
    | _ => .error "bad input"

/-- A node whose handler always raises. -/
def failCls : NodeCls where
  input_required := []
  input_optional := []
  OUTPUT_NODE := false
  params := []
  fn := fun _ => .error "boom"

def demoReg : Registry :=
  [("Const", constCls), ("AddOne", addOneCls), ("Fail", failCls)]

/-- `B` (terminal) consumes slot 0 of `A`. -/
def gOK : Graph :=
  [("A", ⟨"Const", []⟩), ("B", ⟨"AddOne", [("x", .list [.str "A", .int 0])]⟩)]

/-- The initial run state of `execute_graph`. -/
def st0 : St :=
  { memo := [], events := [.log "engine start", .monitorStarted], invoked := [] }

theorem executeGraph_eq (reg : Registry) (g : Graph) (fuel : Nat) :
    executeGraph reg g fuel =
      (match runTargets reg g fuel (topTargets reg g) st0 with
       | (.error e, st1) => (.error e, st1.emit .monitorCancelled)
       | (.ok _, st1) => (.ok (), (st1.emit .done).emit .monitorCancelled)) := rfl

/-! ## C1: at-most-once execution and idempotent memo reads -/

/-- C1: resolution is memoized and at-most-once.  (a) A node id present in
the memo table resolves immediately to the identical cached Result with the
state unchanged — no handler invocation, no events, whatever the remaining
recursion budget.  (b) A successful resolution stores its Result in the
memo table under the node's id.  (c) Hence resolving the same node id again
within the run (any budget) returns the identical cached Result and changes
nothing.  (d) Globally, a whole run invokes each node's handler at most
once: the run's invocation trace has no duplicates, for every graph,
registry and budget. -/
theorem claim_C1 :
    (∀ (reg : Registry) (g : Graph) (fuel : Nat) (nid : String) (st : St)
        (v : Val), st.memo.lookup nid = some v →
        resolve reg g fuel nid st = (.ok v, st))
    ∧ (∀ (reg : Registry) (g : Graph) (fuel : Nat) (nid : String) (st : St)
        (v : Val) (st' : St), resolve reg g fuel nid st = (.ok v, st') →
        st'.memo.lookup nid = some v)
    ∧ (∀ (reg : Registry) (g : Graph) (fuel fuel2 : Nat) (nid : String)
        (st : St) (v : Val) (st' : St),
        resolve reg g fuel nid st = (.ok v, st') →
        resolve reg g fuel2 nid st' = (.ok v, st'))
    ∧ (∀ (reg : Registry) (g : Graph) (fuel : Nat),
        ((executeGraph reg g fuel).2.invoked).Nodup) := by
  have hhit : ∀ (reg : Registry) (g : Graph) (fuel : Nat) (nid : String)
      (st : St) (v : Val), st.memo.lookup nid = some v →
      resolve reg g fuel nid st = (.ok v, st) := by
    intro reg g fuel nid st v h
    cases fuel with
    | zero => rw [resolve, h]
    | succ fuel => rw [resolve, h]
  have hmemoizes : ∀ (reg : Registry) (g : Graph) (fuel : Nat) (nid : String)
      (st : St) (v : Val) (st' : St),
      resolve reg g fuel nid st = (.ok v, st') →
      st'.memo.lookup nid = some v := by
    intro reg g fuel nid st v st' h
    obtain ⟨Δ, hR⟩ := resolve_spec reg g fuel nid st
    rw [h] at hR
    dsimp only at hR
    exact hR.hres v rfl
  refine ⟨hhit, hmemoizes, ?_, ?_⟩
  · intro reg g fuel fuel2 nid st v st' h
    exact hhit reg g fuel2 nid st' v (hmemoizes reg g fuel nid st v st' h)
  · intro reg g fuel
    obtain ⟨Δ, hT⟩ := runTargets_spec reg g fuel (topTargets reg g) st0
    rcases hrun : runTargets reg g fuel (topTargets reg g) st0 with ⟨r, st1⟩
    rw [hrun] at hT
    dsimp only at hT
    rw [executeGraph_eq, hrun]
    have hnd : st1.invoked.Nodup := by
      rw [hT.hinv]
      simpa [st0] using hT.hnodup
    cases r with
    | error e => exact hnd
    | ok u => exact hnd

/-- C1 witness: a concrete memo table is read back unchanged, and a
concrete successful run has a duplicate-free invocation trace. -/
theorem claim_C1_witness :
    resolve demoReg gOK 5 "A"
        { memo := [("A", Val.int 7)], events := [], invoked := [] } =
      (.ok (.int 7),
        { memo := [("A", Val.int 7)], events := [], invoked := [] })
    ∧ ((executeGraph demoReg gOK 10).2.invoked).Nodup := by
  constructor
  · exact claim_C1.1 demoReg gOK 5 "A"
      { memo := [("A", Val.int 7)], events := [], invoked := [] }
      (Val.int 7) rfl
  · exact claim_C1.2.2.2 demoReg gOK 10

/-! ## C4: failure aborts the run -/

/-- C9 counterexample: the claim says the telemetry task is cancelled AND
awaited-to-completion before the run's resources are released.  In this
concrete successful run the cancel operation is performed, but no
await-to-completion of the monitor task ever occurs in the trace — the
source's `finally` block only calls `cancel()`. -/
theorem claim_C9_counterexample :
    Event.monitorCancelled ∈ (executeGraph demoReg gOK 10).2.events
    ∧ Event.monitorAwaited ∉ (executeGraph demoReg gOK 10).2.events := by
  constructor
  · show Event.monitorCancelled ∈ [Event.log "engine start", .monitorStarted,
      .done, .monitorCancelled]
    simp
  · show Event.monitorAwaited ∉ [Event.log "engine start", .monitorStarted,
      .done, .monitorCancelled]
    simp

/-- C9 (amended): on every run — success or failure — the monitor task is
cancelled, and the cancellation is the very last operation of the run (so
it does precede the release of the run's resources); but the run never
awaits the cancelled task to completion. -/
theorem claim_C9 :
    ∀ (reg : Registry) (g : Graph) (fuel : Nat),
    (executeGraph reg g fuel).2.events.getLast? = some Event.monitorCancelled
    ∧ Event.monitorAwaited ∉ (executeGraph reg g fuel).2.events := by
  intro reg g fuel
  obtain ⟨Δ, hT⟩ := runTargets_spec reg g fuel (topTargets reg g) st0
  rcases hrun : runTargets reg g fuel (topTargets reg g) st0 with ⟨r, st1⟩
  rw [hrun] at hT
  dsimp only at hT
  rw [executeGraph_eq, hrun]
  cases r with
  | error e =>
    dsimp only
    constructor
    · show (st1.events ++ [Event.monitorCancelled]).getLast? = _
      rw [List.getLast?_concat]
    · show Event.monitorAwaited ∉ st1.events ++ [Event.monitorCancelled]
      rw [hT.hev]
      simp only [st0, errEvents]
      split
      · simp
      · simp
  | ok u =>
    dsimp only
    constructor
    · show ((st1.events ++ [Event.done]) ++ [Event.monitorCancelled]).getLast? = _
      rw [List.getLast?_concat]
    · show Event.monitorAwaited ∉ (st1.events ++ [Event.done]) ++ [Event.monitorCancelled]
      rw [hT.hev]
      simp [st0, errEvents]

end BrainFlow
